import Mathlib

/-
Verification of the Fractal-Vortex Chain core against its specification.

Shallow embedding conventions:
- Rust u8 / u32 / u64 / u128 values are modelled as Nat, with explicit
  `% 2 ^ w` wherever the source performs a wrapping cast or wrapping
  arithmetic (for example the `as u32` cast in calculate_reward and the
  `wrapping_add` in the Sierpinski transform).
- Rust f64 arithmetic in the difficulty adjuster is modelled over Rat;
  every theorem and counterexample below only exercises inputs on which
  each intermediate f64 value is exactly representable, so the Rat model
  and the f64 code agree bit for bit there.
- The key-value ledger (rpc_storage.rs over storage/mod.rs) is modelled
  as an association list from a typed Key to a typed Value; the distinct
  Rust key format strings (for example "tx:" ++ hash, "block:" ++ height,
  "block_height") are pairwise distinct, which the Key constructors
  reflect, and serde_json round-trips structurally, which storing typed
  values reflects.
- Rust strings are modelled as Lean String / List Char; all inputs the
  validators accept are ASCII, where Rust byte length and char count
  coincide.
-/

namespace FVC

/-! ## Mining reward system (src/consensus/mining_rewards.rs) -/

/-- RewardDistribution struct from mining_rewards.rs. -/
structure RewardDistribution where
  miner_reward : Nat
  ecosystem_reward : Nat
  total_reward : Nat
  halving_epoch : Nat
  blocks_until_halving : Nat
  deriving Repr, DecidableEq

/-- MiningRewardSystem::new field initial_reward. -/
def initial_reward : Nat := 625

/-- MiningRewardSystem::new field halving_interval. -/
def halving_interval : Nat := 12614400

/-- MiningRewardSystem::new field max_halvings. -/
def max_halvings : Nat := 32

/-- MiningRewardSystem::new field ecosystem_percentage. -/
def ecosystem_percentage : Nat := 10

/-- MiningRewardSystem::calculate_reward. The Rust source computes
`(block_height / self.halving_interval) as u32`; the `as u32` cast
truncates, which the `% 2 ^ 32` reflects. -/
def calculate_reward (block_height : Nat) : RewardDistribution :=
  let halving_epoch := (block_height / halving_interval) % 2 ^ 32
  if max_halvings ≤ halving_epoch then
    { miner_reward := 0
      ecosystem_reward := 0
      total_reward := 0
      halving_epoch := halving_epoch
      blocks_until_halving := 0 }
  else
    let current_reward := initial_reward >>> halving_epoch
    let ecosystem_reward := current_reward * ecosystem_percentage / 100
    let miner_reward := current_reward - ecosystem_reward
    let blocks_until_halving := halving_interval - block_height % halving_interval
    { miner_reward := miner_reward
      ecosystem_reward := ecosystem_reward
      total_reward := current_reward
      halving_epoch := halving_epoch
      blocks_until_halving := blocks_until_halving }

/-! ## Difficulty adjuster (src/consensus/difficulty_adjuster.rs)

The source computes over f64, so the embedding models IEEE-754 binary64
faithfully: every arithmetic result is the exact value rounded to 53
significand bits with round-to-nearest, ties to even; division by zero
gives infinity or NaN; clamp, round and the saturating u64 cast follow
the Rust semantics.  Only nonnegative values flow through this function
(u64 casts, their quotient, a clamp with positive bounds, a product of
nonnegatives), so the model carries nonnegative finite values, +infinity
and NaN; the negative branches below exist for totality only. -/

/-- Rust f64::round semantics (round half away from zero) on a rational.
The f64 result of round is always exact: below 2 ^ 52 the nearest integer
is representable, above it the argument is already an integer. -/
def rustRound (q : ℚ) : ℤ :=
  if 0 ≤ q then ⌊q + 1 / 2⌋ else ⌈q - 1 / 2⌉

/-- DifficultyAdjuster::new field max_adjustment_factor (the f64 literal
4.0 and the quotient 1.0 / 4.0 = 0.25 are exactly representable). -/
def max_adjustment_factor : ℚ := 4

/-- An IEEE-754 binary64 value as this data flow needs it: a finite value
(produced only by rounding, hence representable), +infinity, or NaN. -/
inductive F64 where
  | finite (val : ℚ)
  | inf
  | nan
  deriving Repr, DecidableEq

/-- Round a rational to the nearest integer, ties to even. -/
def rne (y : ℚ) : ℤ :=
  if y - ⌊y⌋ < 1 / 2 then ⌊y⌋
  else if 1 / 2 < y - ⌊y⌋ then ⌊y⌋ + 1
  else if ⌊y⌋ % 2 = 0 then ⌊y⌋ else ⌊y⌋ + 1

/-- A fuelled base-2 floor logarithm, structurally recursive so that the
kernel can evaluate it (fuel n suffices for input n). -/
def log2fuel : Nat → Nat → Nat
  | 0, _ => 0
  | fuel + 1, n => if 2 ≤ n then log2fuel fuel (n / 2) + 1 else 0

/-- Floor base-2 logarithm of a natural number. -/
def natLog2 (n : Nat) : Nat :=
  log2fuel n n

/-- Floor base-2 logarithm of a positive rational, the binade exponent e
with 2 ^ e ≤ x < 2 ^ (e + 1): the difference of the numerator and
denominator bit lengths, corrected down by one step when needed. -/
def qlog2 (x : ℚ) : ℤ :=
  let e := (natLog2 x.num.toNat : ℤ) - (natLog2 x.den : ℤ)
  if (2 : ℚ) ^ e ≤ x then e else e - 1

/-- Round a positive rational to binary64: snap the significand to the grid
of 2 ^ (e - 52) for the binade exponent e (clamped at -1022, which also
yields the subnormal grid and underflow to zero), ties to even, and
overflow to infinity at 2 ^ 1024. -/
def roundF64pos (x : ℚ) : F64 :=
  let e := max (qlog2 x) (-1022)
  let v := (rne (x / 2 ^ (e - 52)) : ℚ) * 2 ^ (e - 52)
  if v < 2 ^ 1024 then .finite v else .inf

/-- Round any rational to binary64.  Negative inputs never arise in this
function; the mirrored branch exists for totality. -/
def roundF64 (x : ℚ) : F64 :=
  if x = 0 then .finite 0
  else if 0 < x then roundF64pos x
  else
    match roundF64pos (-x) with
    | .finite v => .finite (-v)
    | f => f

/-- Rust u64 as f64: round to nearest, ties to even. -/
def u64ToF64 (n : Nat) : F64 :=
  roundF64 (n : ℚ)

/-- IEEE binary64 division of nonnegative operands: the exact quotient
rounded; x / 0 is infinity for x > 0 and NaN for x = 0. -/
def fdiv : F64 → F64 → F64
  | .nan, _ => .nan
  | _, .nan => .nan
  | .inf, .inf => .nan
  | .inf, .finite _ => .inf
  | .finite _, .inf => .finite 0
  | .finite x, .finite y =>
    if y = 0 then (if x = 0 then .nan else .inf) else roundF64 (x / y)

/-- IEEE binary64 multiplication of nonnegative operands: the exact product
rounded; infinity times zero is NaN. -/
def fmul : F64 → F64 → F64
  | .nan, _ => .nan
  | _, .nan => .nan
  | .inf, .inf => .inf
  | .inf, .finite y => if y = 0 then .nan else .inf
  | .finite x, .inf => if x = 0 then .nan else .inf
  | .finite x, .finite y => roundF64 (x * y)

/-- Rust f64::clamp with finite bounds on a nonnegative value: max if above
max, min if below min, NaN stays NaN (and +infinity clamps to max). -/
def fclamp (x : F64) (lo hi : ℚ) : F64 :=
  match x with
  | .nan => .nan
  | .inf => .finite hi
  | .finite v => if v < lo then .finite lo else if hi < v then .finite hi else .finite v

/-- Rust f64::round on a binary64 value; the result needs no re-rounding. -/
def fround : F64 → F64
  | .finite v => .finite ((rustRound v : ℤ) : ℚ)
  | .inf => .inf
  | .nan => .nan

/-- Rust `as u64` on f64: saturating, truncating toward zero, NaN to 0. -/
def f64ToU64 : F64 → Nat
  | .finite v =>
    if v < 0 then 0
    else if (2 ^ 64 : ℚ) ≤ v then 2 ^ 64 - 1
    else ⌊v⌋.toNat
  | .inf => 2 ^ 64 - 1
  | .nan => 0

/-- DifficultyAdjuster::calculate_new_difficulty over the binary64 model.
The u64 product and sum wrap modulo 2 ^ 64 (release semantics; a debug
build would abort on overflow, which no claim exercises). -/
def calculate_new_difficulty (target_block_time adjustment_interval : Nat)
    (current_difficulty : Nat) (actual_times : List Nat) : Nat :=
  if actual_times.length < adjustment_interval then current_difficulty
  else
    let expected_time := target_block_time * adjustment_interval % 2 ^ 64
    let actual_time := actual_times.sum % 2 ^ 64
    let adjustment_factor :=
      fclamp (fdiv (u64ToF64 expected_time) (u64ToF64 actual_time))
        (1 / max_adjustment_factor) max_adjustment_factor
    let new_difficulty :=
      f64ToU64 (fround (fmul (u64ToF64 current_difficulty) adjustment_factor))
    max new_difficulty 1

/-! ## Address validation (src/input_validation.rs) -/

/-- ValidationError enum from input_validation.rs. -/
inductive ValidationError where
  | InvalidFormat (msg : String)
  | InvalidLength (msg : String)
  | InvalidRange (msg : String)
  | InvalidCharacters (msg : String)
  | Required (msg : String)
  | InvalidType (msg : String)
  deriving Repr, DecidableEq

/-- Rust u8::is_ascii_hexdigit: 0-9, a-f, and A-F all count. -/
def isAsciiHexDigit (c : Char) : Bool :=
  (('0' ≤ c && c ≤ '9') || ('a' ≤ c && c ≤ 'f') || ('A' ≤ c && c ≤ 'F'))

/-- The last n characters of a list, as Rust ends_with sees them. -/
def takeLast (n : Nat) (l : List Char) : List Char :=
  l.drop (l.length - n)

/-- InputValidator::validate_fvchain_address, with the &str modelled as its
character list.  The checks run in source order: empty, prefix "fvc",
suffix "emyl", total length 43, hex-part length 36, hex-part characters. -/
def validate_fvchain_address (address : List Char) : Except ValidationError Unit :=
  if address.isEmpty then
    .error (.Required "Address is required")
  else if ¬ (address.take 3 = ['f', 'v', 'c']) then
    .error (.InvalidFormat "Address must start with fvc")
  else if ¬ (takeLast 4 address = ['e', 'm', 'y', 'l']) then
    .error (.InvalidFormat "Address must end with emyl")
  else if ¬ (address.length = 43) then
    .error (.InvalidLength "Address must be exactly 43 characters")
  else
    let hex_part := (address.drop 3).take 36
    if ¬ (hex_part.length = 36) then
      .error (.InvalidLength "Hex part must be exactly 36 characters")
    else if ¬ (hex_part.all isAsciiHexDigit) then
      .error (.InvalidCharacters "Address hex part can only contain hexadecimal characters")
    else
      .ok ()

/-- The address shape required by the specification, section 6: exactly 43
characters, literal prefix "fvc", then 36 lowercase hex characters, then
literal suffix "emyl".  Written from the words of the spec, to compare
with the validator embedded from the source. -/
def specAddressShape (address : List Char) : Bool :=
  address.length = 43
    && address.take 3 = ['f', 'v', 'c']
    && takeLast 4 address = ['e', 'm', 'y', 'l']
    && ((address.drop 3).take 36).all
        (fun c => ('0' ≤ c && c ≤ '9') || ('a' ≤ c && c ≤ 'f'))

/-- The shape the code actually accepts: as the spec shape but with the
middle 36 characters ASCII hex of either case. -/
def codeAddressShape (address : List Char) : Bool :=
  address.length = 43
    && address.take 3 = ['f', 'v', 'c']
    && takeLast 4 address = ['e', 'm', 'y', 'l']
    && ((address.drop 3).take 36).all isAsciiHexDigit

/-! ## Fractal hash and PoW (src/crypto/fractal_hash.rs) -/

/-- FractalHasher::new Sierpinski seed:
seed[i] = ((i as u8 * 7) % 255) ^ ((i as u8 * 5) % 255).  The u8
multiplication wraps modulo 256 before the % 255. -/
def sierpinski_seed (i : Nat) : Nat :=
  (i * 7 % 256 % 255) ^^^ (i * 5 % 256 % 255)

/-- FractalHasher::vortex_transform: the 1-2-4-8-7-5 cyclic pattern. -/
def vortex_transform (input : Nat) : Nat :=
  [1, 2, 4, 8, 7, 5].getD (input % 6) 0

/-- FractalHasher::sierpinski_transform on a 32-byte digest: XOR a seeded
triangle bit into each byte, then wrapping-add the vortex pattern. -/
def sierpinski_transform (hash : List Nat) (level : Nat) : List Nat :=
  (List.range 32).map fun i =>
    let pattern_index := (i + level) % 32
    let triangle_bit := (sierpinski_seed pattern_index >>> (i % 8)) &&& 1
    let x := hash.getD i 0 ^^^ (triangle_bit <<< (i % 8))
    (x + vortex_transform i) % 256

/-- FractalHasher::fractal_hash restricted to its digest output: start from
the SHA3-256 of the data and apply the Sierpinski transform once per
level.  SHA3-256 comes from the external sha3 crate, so it enters the
model as the parameter sha3. -/
def fractal_digest (sha3 : List Nat → List Nat) (fractal_level : Nat)
    (data : List Nat) : List Nat :=
  (List.range fractal_level).foldl (fun h level => sierpinski_transform h level)
    (sha3 data)

/-- The count of leading zero bytes used by FractalPoW::meets_difficulty. -/
def leading_zero_bytes (hash : List Nat) : Nat :=
  (hash.takeWhile (fun b => b = 0)).length

/-- FractalPoW::meets_difficulty. -/
def meets_difficulty (difficulty : Nat) (hash : List Nat) : Bool :=
  decide (difficulty ≤ leading_zero_bytes hash)

/-- u64::to_le_bytes. -/
def to_le_bytes_u64 (n : Nat) : List Nat :=
  (List.range 8).map fun i => n >>> (8 * i) % 256

/-- FractalPoW::mine, made total with a fuel argument counting the nonces
still to try; the Rust loop is the fuel = infinity limit.  Returns the
nonce (as a number; the source returns its little-endian bytes) together
with the digest.  BlockHash::new(input, levels).hash is exactly
fractal_digest sha3 levels input on a fresh hasher. -/
def mine_from (sha3 : List Nat → List Nat) (difficulty fractal_levels : Nat)
    (data : List Nat) : Nat → Nat → Option (Nat × List Nat)
  | 0, _ => none
  | fuel + 1, nonce =>
    let input := data ++ to_le_bytes_u64 nonce
    let h := fractal_digest sha3 fractal_levels input
    if meets_difficulty difficulty h then some (nonce, h)
    else mine_from sha3 difficulty fractal_levels data fuel (nonce + 1)

/-- FractalPoW::mine: start the nonce search at 0. -/
def mine (sha3 : List Nat → List Nat) (difficulty fractal_levels : Nat)
    (data : List Nat) (fuel : Nat) : Option (Nat × List Nat) :=
  mine_from sha3 difficulty fractal_levels data fuel 0

/-- FractalPoW::verify: recompute the digest of data ++ nonce bytes, compare
with the given hash, and check the difficulty of the given hash. -/
def pow_verify (sha3 : List Nat → List Nat) (difficulty fractal_levels : Nat)
    (data nonce_bytes hash : List Nat) : Bool :=
  let input := data ++ nonce_bytes
  let calculated := fractal_digest sha3 fractal_levels input
  calculated == hash && meets_difficulty difficulty hash

/-! ## Ledger store (src/rpc_storage.rs over src/storage/mod.rs)

The LedgerDB key-value engine is modelled as an association list from a
typed Key to a typed Value: the Key constructors mirror the pairwise
distinct Rust key format strings, and the Value constructors mirror the
serde_json encodings, whose round trips are structural identities. -/

/-- WalletTransaction struct from rpc_storage.rs.  The Rust fields from and
to appear here as fromAddr and toAddr, from being a Lean keyword. -/
structure WalletTransaction where
  hash : String
  fromAddr : String
  toAddr : String
  amount : Nat
  timestamp : Nat
  transaction_type : String
  block_height : Nat
  deriving Repr, DecidableEq

/-- Block struct from rpc_storage.rs. -/
structure Block where
  hash : String
  height : Nat
  timestamp : Nat
  transactions : List WalletTransaction
  transaction_count : Nat
  miner : String
  parent_hash : String
  nonce : Nat
  difficulty : Nat
  size : Nat
  deriving Repr, DecidableEq

/-- The ledger keys the claims touch, one constructor per Rust key format:
txKey h is "tx:" ++ h, txRegistry is "transaction_hashes_registry",
txCount is "transaction_count", blockKey n is "block:" ++ n,
blockHeight is "block_height", balanceKey a is the raw address bytes,
deviceAddr i is "device_addr:" ++ i, deviceSession i is
"device_session:" ++ i, sessionRegistry is "session_keys_registry". -/
inductive Key where
  | txKey (hash : String)
  | txRegistry
  | txCount
  | blockKey (height : Nat)
  | blockHeight
  | balanceKey (address : String)
  | deviceAddr (id : String)
  | deviceSession (id : String)
  | sessionRegistry
  deriving Repr, DecidableEq

/-- Typed ledger values, one constructor per encoding the claims touch. -/
inductive Value where
  | nat (n : Nat)
  | str (s : String)
  | strList (l : List String)
  | tx (t : WalletTransaction)
  | block (b : Block)
  | session (token : String) (timestamp : Nat)
  deriving Repr, DecidableEq

/-- The key-value store state. -/
def Store := List (Key × Value)

/-- LedgerDB::get. -/
def kvGet : Store → Key → Option Value
  | [], _ => none
  | (k, v) :: rest, key => if k = key then some v else kvGet rest key

/-- LedgerDB::put overwrites the key. -/
def kvPut (s : Store) (key : Key) (v : Value) : Store :=
  (key, v) :: s

/-- RPCStorage::get_balance: an absent address reads as 0. -/
def get_balance (s : Store) (address : String) : Nat :=
  match kvGet s (.balanceKey address) with
  | some (.nat n) => n
  | _ => 0

/-- RPCStorage::set_balance. -/
def set_balance (s : Store) (address : String) (balance : Nat) : Store :=
  kvPut s (.balanceKey address) (.nat balance)

/-- The transaction_hashes_registry contents, with unwrap_or_default on an
absent or unparseable value. -/
def get_tx_registry (s : Store) : List String :=
  match kvGet s .txRegistry with
  | some (.strList l) => l
  | _ => []

/-- RPCStorage::get_transaction_count reads the registry length. -/
def get_transaction_count (s : Store) : Nat :=
  (get_tx_registry s).length

/-- RPCStorage::set_transaction_count. -/
def set_transaction_count (s : Store) (count : Nat) : Store :=
  kvPut s .txCount (.nat count)

/-- RPCStorage::increment_transaction_count. -/
def increment_transaction_count (s : Store) : Store :=
  set_transaction_count s (get_transaction_count s + 1)

/-- RPCStorage::add_transaction: write tx:{hash}, then append the hash to
the registry and bump the counter only when the hash is new. -/
def add_transaction (t : WalletTransaction) (s : Store) : Store :=
  let s1 := kvPut s (.txKey t.hash) (.tx t)
  let tx_hashes := get_tx_registry s1
  if t.hash ∈ tx_hashes then s1
  else increment_transaction_count (kvPut s1 .txRegistry (.strList (tx_hashes ++ [t.hash])))

/-- RPCStorage::get_block_height: an absent key reads as 1 (the source
comments this default with Genesis block). -/
def get_block_height (s : Store) : Nat :=
  match kvGet s .blockHeight with
  | some (.nat n) => n
  | _ => 1

/-- RPCStorage::set_block_height. -/
def set_block_height (s : Store) (height : Nat) : Store :=
  kvPut s .blockHeight (.nat height)

/-- RPCStorage::increment_block_height returns the new height. -/
def increment_block_height (s : Store) : Nat × Store :=
  let new_height := get_block_height s + 1
  (new_height, set_block_height s new_height)

/-- RPCStorage::store_block: write block:{height}, then add each contained
transaction.  No latest-height record is written here. -/
def store_block (b : Block) (s : Store) : Store :=
  b.transactions.foldl (fun st t => add_transaction t st)
    (kvPut s (.blockKey b.height) (.block b))

/-- RPCStorage::get_block_by_height. -/
def get_block_by_height (height : Nat) (s : Store) : Option Block :=
  match kvGet s (.blockKey height) with
  | some (.block b) => some b
  | _ => none

/-- RPCStorage::get_device_address. -/
def get_device_address (s : Store) (device_id : String) : Option String :=
  match kvGet s (.deviceAddr device_id) with
  | some (.str a) => some a
  | _ => none

/-- RPCStorage::get_device_session. -/
def get_device_session (s : Store) (device_id : String) : Option (String × Nat) :=
  match kvGet s (.deviceSession device_id) with
  | some (.session tok ts) => some (tok, ts)
  | _ => none

/-- RPCStorage::get_session_registry. -/
def get_session_registry (s : Store) : List String :=
  match kvGet s .sessionRegistry with
  | some (.strList l) => l
  | _ => []

/-- RPCStorage::get_all_active_devices: registry entries that still have a
device_session record. -/
def get_all_active_devices (s : Store) : List String :=
  (get_session_registry s).filter (fun id => (get_device_session s id).isSome)

/-! ## Ecosystem miner (src/node/ecosystem_miner.rs) -/

/-- u64::MAX. -/
def u64Max : Nat := 2 ^ 64 - 1

/-- u64::saturating_add. -/
def saturating_add_u64 (a b : Nat) : Nat :=
  min (a + b) u64Max

/-- WalletTransaction::new_mining_reward, with the wall-clock timestamp the
miner immediately overwrites passed in directly as ts. -/
def new_mining_reward (address : String) (amount : Nat) (hash : String)
    (bh ts : Nat) : WalletTransaction :=
  { hash := hash
    fromAddr := "Mining-Reward"
    toAddr := address
    amount := amount
    timestamp := ts
    transaction_type := "mining_reward"
    block_height := bh }

/-- The per-block reward constant of the miner loop (6.25 FVC in 6-decimal
micro-units). -/
def block_reward : Nat := 6250000

/-- The hard-coded ecosystem wallet address of EcosystemMiner::new. -/
def ecosystem_address : String := "fvcfedcba9876543210fedcba9876543210fedcbaemyl"

/-- One iteration of the reward-distribution loop body: devices without a
stored wallet address are skipped; for the others a mining_reward
transaction is created and stored and the balance is bumped by
saturating addition.  The Rust tx hash mixes the height, timestamp,
device prefix and a fresh random u32; it enters the model as mkHash. -/
def reward_step (reward_per_miner bh ts : Nat) (mkHash : String → String)
    (acc : Store × List WalletTransaction) (device_id : String) :
    Store × List WalletTransaction :=
  match get_device_address acc.1 device_id with
  | some miner_address =>
    let tx := new_mining_reward miner_address reward_per_miner (mkHash device_id) bh ts
    let s1 := add_transaction tx acc.1
    let s2 := set_balance s1 miner_address
      (saturating_add_u64 (get_balance s1 miner_address) reward_per_miner)
    (s2, acc.2 ++ [tx])
  | none => acc

/-- The reward-distribution section of one miner tick: with active devices,
split block_reward by integer division across all of them; with none,
create a single full-reward transaction to the ecosystem address (whose
random "eco" hash enters the model as ecoHash). -/
def distribute_rewards (bh ts : Nat) (mkHash : String → String) (ecoHash : String)
    (s : Store) : Store × List WalletTransaction :=
  let active_devices := get_all_active_devices s
  if active_devices.isEmpty then
    let tx := new_mining_reward ecosystem_address block_reward ecoHash bh ts
    (add_transaction tx s, [tx])
  else
    let reward_per_miner := block_reward / active_devices.length
    active_devices.foldl (reward_step reward_per_miner bh ts mkHash) (s, [])

/-- Block::add_transaction: push, recount, resize. -/
def block_add_transaction (b : Block) (t : WalletTransaction) : Block :=
  let transactions := b.transactions ++ [t]
  let transaction_count := transactions.length
  { b with
    transactions := transactions
    transaction_count := transaction_count
    size := 1000 + b.height * 100 + transaction_count * 200 }

/-- Lowercase hex encoding of a byte list, as hex::encode. -/
def hex_encode (bytes : List Nat) : String :=
  String.mk (bytes.foldr
    (fun b acc => Nat.digitChar (b / 16 % 16) :: Nat.digitChar (b % 16) :: acc) [])

/-- Rust format with 064x: lowercase hex padded with zeros to 64 chars. -/
def format_hex64 (n : Nat) : String :=
  let ds := Nat.toDigits 16 n
  String.mk (List.replicate (64 - ds.length) '0' ++ ds)

/-- Block::new_with_real_hash_and_timestamp. -/
def new_with_real_hash_and_timestamp (height : Nat) (miner parent_hash : String)
    (real_hash : List Nat) (nonce difficulty ts : Nat) : Block :=
  { hash := "0x" ++ hex_encode real_hash
    height := height
    timestamp := ts
    transactions := []
    transaction_count := 0
    miner := miner
    parent_hash := parent_hash
    nonce := nonce
    difficulty := difficulty
    size := 1000 + height * 100 }

/-- The parent hash the miner fabricates: hex(h - 1 + 12345) zero-padded to
64 chars, or 64 zeros at height 0. -/
def miner_parent_hash (new_block_height : Nat) : String :=
  if 0 < new_block_height then format_hex64 (new_block_height - 1 + 12345)
  else String.mk (List.replicate 64 '0')

/-- The block one miner tick constructs: new_with_real_hash_and_timestamp at
difficulty 2 with the miner set to the ecosystem address, then every
reward transaction appended through Block::add_transaction. -/
def miner_block (new_block_height ts : Nat) (digest : List Nat) (nonce : Nat)
    (txs : List WalletTransaction) : Block :=
  txs.foldl block_add_transaction
    (new_with_real_hash_and_timestamp new_block_height ecosystem_address
      (miner_parent_hash new_block_height) digest nonce 2 ts)

/-- The ledger-facing body of one EcosystemMiner tick: increment the height
counter to obtain h, distribute rewards, build the block at h, store it,
and (the store having succeeded, which in this model it always does)
increment the height counter a second time. -/
def miner_tick (ts : Nat) (mkHash : String → String) (ecoHash : String)
    (digest : List Nat) (nonce : Nat) (s : Store) : Store :=
  let ih := increment_block_height s
  let dr := distribute_rewards ih.1 ts mkHash ecoHash ih.2
  (increment_block_height (store_block (miner_block ih.1 ts digest nonce dr.2) dr.1)).2

/-- The backward scan of RPCStorage::get_latest_blocks: walk current_height
down to 1, collecting blocks that exist, until limit blocks are found. -/
def scan_blocks (s : Store) : Nat → Nat → List Block
  | _, 0 => []
  | remaining, ch + 1 =>
    if remaining = 0 then []
    else
      match get_block_by_height (ch + 1) s with
      | some b => b :: scan_blocks s (remaining - 1) ch
      | none => scan_blocks s remaining ch

/-- RPCStorage::get_latest_blocks: scan backwards from the height counter,
append the genesis block when fewer than limit blocks were found, and
stable-sort by height descending (Rust sort_by is a stable sort, modelled
by insertion sort with the same comparator). -/
def get_latest_blocks (limit : Nat) (s : Store) : List Block :=
  let blocks := scan_blocks s limit (get_block_height s)
  let blocks2 :=
    if blocks.length < limit then
      match get_block_by_height 0 s with
      | some g => blocks ++ [g]
      | none => blocks
    else blocks
  blocks2.insertionSort (fun a b => b.height ≤ a.height)

/-! ## Mining auto-detection (src/mining/auto_detection.rs) -/

/-- DeviceConnection struct from auto_detection.rs, timestamps in seconds. -/
structure DeviceConnection where
  device_id : String
  last_heartbeat : Nat
  session_token : String
  wallet_address : String
  is_mining : Bool
  connection_count : Nat
  last_activity : Nat
  deriving Repr, DecidableEq

/-- AutoDetectionConfig struct, durations in whole seconds. -/
structure AutoDetectionConfig where
  heartbeat_timeout : Nat
  check_interval : Nat
  grace_period : Nat
  max_retry_attempts : Nat
  deriving Repr, DecidableEq

/-- AutoDetectionConfig::default : 45 s heartbeat timeout, 10 s check
interval, 90 s grace period, 3 retry attempts. -/
def defaultAutoDetectionConfig : AutoDetectionConfig :=
  { heartbeat_timeout := 45
    check_interval := 10
    grace_period := 90
    max_retry_attempts := 3 }

/-- now.saturating_sub(last_heartbeat), the elapsed time the monitor sees. -/
def time_since_heartbeat (now : Nat) (c : DeviceConnection) : Nat :=
  now - c.last_heartbeat

/-- The devices one MiningAutoDetection::start_monitoring iteration stops:
mining, past the heartbeat timeout and past the grace period.  The
registry is the association list of the in-process HashMap; this list is
exactly the set of devices for which the stop callback fires. -/
def devices_to_stop (config : AutoDetectionConfig) (now : Nat)
    (connections : List (String × DeviceConnection)) : List String :=
  (connections.filter fun p =>
    decide (config.heartbeat_timeout < time_since_heartbeat now p.2) &&
      p.2.is_mining &&
      decide (config.grace_period < time_since_heartbeat now p.2)).map Prod.fst

/-- The devices the monitor garbage-collects: not mining, past the timeout
and past twice the grace period. -/
def devices_to_remove (config : AutoDetectionConfig) (now : Nat)
    (connections : List (String × DeviceConnection)) : List String :=
  (connections.filter fun p =>
    decide (config.heartbeat_timeout < time_since_heartbeat now p.2) &&
      !p.2.is_mining &&
      decide (config.grace_period * 2 < time_since_heartbeat now p.2)).map Prod.fst

/-- The monitor iteration applied to the registry: clear is_mining on the
stopped devices and drop the removed ones. -/
def monitor_tick (config : AutoDetectionConfig) (now : Nat)
    (connections : List (String × DeviceConnection)) :
    List (String × DeviceConnection) × List String × List String :=
  let stopped := connections.map fun p =>
    if p.1 ∈ devices_to_stop config now connections
    then (p.1, { p.2 with is_mining := false }) else p
  let remaining := stopped.filter fun p =>
    decide (p.1 ∉ devices_to_remove config now connections)
  (remaining, devices_to_stop config now connections,
    devices_to_remove config now connections)

/-! ## Concrete counterexample inputs -/

/-- A block at height 5 with no transactions, for the C3 counterexample. -/
def cexBlock : Block :=
  { hash := "0xdead"
    height := 5
    timestamp := 7
    transactions := []
    transaction_count := 0
    miner := "m"
    parent_hash := "p"
    nonce := 0
    difficulty := 2
    size := 1500 }

/-- A store holding one registered active device d1 that has a session but
no stored wallet address, for the C4 counterexample. -/
def cexDeviceStore : Store :=
  kvPut (kvPut [] .sessionRegistry (.strList ["d1"])) (.deviceSession "d1")
    (.session "tok" 0)

/-- A genesis block record, for the C10 witness. -/
def genesisBlock : Block :=
  { hash := "0xgen"
    height := 0
    timestamp := 0
    transactions := []
    transaction_count := 0
    miner := "genesis"
    parent_hash := "0"
    nonce := 0
    difficulty := 1
    size := 1000 }

/-- A store holding only the genesis block, for the C10 witness. -/
def genesisOnlyStore : Store :=
  kvPut [] (.blockKey 0) (.block genesisBlock)

/-- A store with one active device d1 whose wallet address is known, for
the C4 witness. -/
def c4WitnessStore : Store :=
  kvPut
    (kvPut (kvPut [] .sessionRegistry (.strList ["d1"])) (.deviceSession "d1")
      (.session "tok" 0))
    (.deviceAddr "d1") (.str "addr1")

/-- The per-tick sum of device balance deltas between two ledger states:
for each device in the list, the increase of the balance of its stored
wallet address, devices without a stored address contributing 0. -/
def dev_delta_sum (devices : List String) (s s2 : Store) : Nat :=
  (devices.map fun d =>
    match get_device_address s d with
    | some a => get_balance s2 a - get_balance s a
    | none => 0).sum

/-- A mining device whose last heartbeat is long past, for the C8 witness. -/
def cexConnection : DeviceConnection :=
  { device_id := "d"
    last_heartbeat := 0
    session_token := "tok"
    wallet_address := "addr"
    is_mining := true
    connection_count := 1
    last_activity := 0 }

/-! ## C2 theorems -/

/-- Any nonce mine_from returns is at least the starting nonce, carries its
own digest, meets the difficulty, and every nonce from the start up to it
fails the difficulty check. -/
theorem mine_from_spec (sha3 : List Nat → List Nat) (difficulty fractal_levels : Nat)
    (data : List Nat) :
    ∀ fuel start n h, mine_from sha3 difficulty fractal_levels data fuel start = some (n, h) →
      start ≤ n ∧
      h = fractal_digest sha3 fractal_levels (data ++ to_le_bytes_u64 n) ∧
      meets_difficulty difficulty h = true ∧
      ∀ m, start ≤ m → m < n →
        meets_difficulty difficulty
          (fractal_digest sha3 fractal_levels (data ++ to_le_bytes_u64 m)) = false := by
  intro fuel
  induction fuel with
  | zero => intro start n h hmine; exact absurd hmine (by simp [mine_from])
  | succ fuel ih =>
    intro start n h hmine
    rw [mine_from] at hmine
    by_cases hd : meets_difficulty difficulty
        (fractal_digest sha3 fractal_levels (data ++ to_le_bytes_u64 start)) = true
    · rw [if_pos hd] at hmine
      obtain ⟨rfl, rfl⟩ : start = n ∧
          fractal_digest sha3 fractal_levels (data ++ to_le_bytes_u64 start) = h := by
        simpa using hmine
      exact ⟨le_refl _, rfl, hd, fun m h1 h2 => absurd (lt_of_le_of_lt h1 h2) (lt_irrefl _)⟩
    · rw [if_neg hd] at hmine
      obtain ⟨hle, hdig, hmeets, hmin⟩ := ih (start + 1) n h hmine
      refine ⟨by omega, hdig, hmeets, fun m h1 h2 => ?_⟩
      by_cases hm : m = start
      · subst hm; exact Bool.eq_false_iff.mpr hd
      · exact hmin m (by omega) h2

/-- C2: whenever mine terminates (within any fuel), it has tried nonces
starting at 0 in increasing order and returned the first nonce whose
fractal digest of data ++ nonce_le_bytes has at least difficulty leading
zero bytes, and verify accepts that data, that nonce as little-endian
bytes, and that digest. -/
theorem mine_pow_sound (sha3 : List Nat → List Nat) (difficulty fractal_levels : Nat)
    (data : List Nat) (fuel n : Nat) (h : List Nat)
    (hmine : mine sha3 difficulty fractal_levels data fuel = some (n, h)) :
    pow_verify sha3 difficulty fractal_levels data (to_le_bytes_u64 n) h = true ∧
    difficulty ≤ leading_zero_bytes h ∧
    h = fractal_digest sha3 fractal_levels (data ++ to_le_bytes_u64 n) ∧
    ∀ m, m < n →
      meets_difficulty difficulty
        (fractal_digest sha3 fractal_levels (data ++ to_le_bytes_u64 m)) = false := by
  obtain ⟨-, hdig, hmeets, hmin⟩ :=
    mine_from_spec sha3 difficulty fractal_levels data fuel 0 n h hmine
  refine ⟨?_, ?_, hdig, fun m hm => hmin m (Nat.zero_le m) hm⟩
  · rw [pow_verify]
    simp only [Bool.and_eq_true, beq_iff_eq]
    exact ⟨hdig.symm, hmeets⟩
  · simpa [meets_difficulty] using hmeets

/-- Witness for mine_pow_sound: with the SHA3 parameter stubbed to the all
zero digest and zero fractal levels, mining at difficulty 2 returns nonce
0 at once and verification accepts it. -/
theorem mine_pow_sound_witness :
    mine (fun _ => List.replicate 32 0) 2 0 [1, 2, 3] 1 =
      some (0, List.replicate 32 0) ∧
    pow_verify (fun _ => List.replicate 32 0) 2 0 [1, 2, 3]
      (to_le_bytes_u64 0) (List.replicate 32 0) = true :=
  ⟨by decide,
    (mine_pow_sound (fun _ => List.replicate 32 0) 2 0 [1, 2, 3] 1 0
      (List.replicate 32 0) (by decide)).1⟩

/-! ## C1 theorems -/

/-- C1 counterexample: at block height 12614400 * 2 ^ 32 (a valid u64) the
halving epoch 12614400 * 2 ^ 32 / HALVING_INTERVAL = 2 ^ 32 is at least
32, so the claim demands total_reward = 0, but the `as u32` cast in
calculate_reward truncates the epoch to 0 and the code returns the full
initial reward 625. -/
theorem calculate_reward_truncation_cex :
    12614400 * 2 ^ 32 < 2 ^ 64 ∧
    32 ≤ 12614400 * 2 ^ 32 / halving_interval ∧
    (calculate_reward (12614400 * 2 ^ 32)).total_reward = 625 := by
  refine ⟨by norm_num, ?_, ?_⟩
  · norm_num [halving_interval]
  · norm_num [calculate_reward, halving_interval, max_halvings, initial_reward,
      ecosystem_percentage]

/-- C1 (amended): for every u64 block height h, with e the u32-truncated
epoch (h / HALVING_INTERVAL) % 2 ^ 32, calculate_reward returns
total_reward = initial_reward >>> e when e < 32 and
total_reward = miner_reward = ecosystem_reward = 0 when e ≥ 32; in
particular the original claim holds whenever h / HALVING_INTERVAL < 32. -/
theorem calculate_reward_halving (h : Nat) (_hh : h < 2 ^ 64) :
    ((h / halving_interval % 2 ^ 32 < 32 →
        (calculate_reward h).total_reward =
          initial_reward >>> (h / halving_interval % 2 ^ 32)) ∧
      (32 ≤ h / halving_interval % 2 ^ 32 →
        (calculate_reward h).total_reward = 0 ∧
        (calculate_reward h).miner_reward = 0 ∧
        (calculate_reward h).ecosystem_reward = 0)) ∧
    (h / halving_interval < 32 →
      (calculate_reward h).total_reward = initial_reward >>> (h / halving_interval)) := by
  refine ⟨⟨fun he => ?_, fun he => ?_⟩, fun he => ?_⟩
  · rw [calculate_reward]
    rw [if_neg (by simp only [max_halvings]; omega)]
  · rw [calculate_reward]
    rw [if_pos (by simp only [max_halvings]; omega)]
    exact ⟨rfl, rfl, rfl⟩
  · have he32 : h / halving_interval % 2 ^ 32 = h / halving_interval :=
      Nat.mod_eq_of_lt (by omega)
    rw [calculate_reward]
    rw [if_neg (by simp only [max_halvings]; omega), he32]

/-- Witness for calculate_reward_halving at height HALVING_INTERVAL. -/
theorem calculate_reward_halving_witness :
    12614400 < 2 ^ 64 ∧
    (calculate_reward 12614400).total_reward =
      initial_reward >>> (12614400 / halving_interval % 2 ^ 32) :=
  ⟨by norm_num,
    ((calculate_reward_halving 12614400 (by norm_num)).1.1
      (by norm_num [halving_interval]))⟩

/-! ## C5 theorems -/

/-- C5 counterexample: the address with 36 uppercase A characters in the
middle is accepted by the validator (is_ascii_hexdigit allows A-F), but
the spec shape demands lowercase hex there and the claim says such an
address is rejected. -/
theorem validate_fvchain_address_uppercase_cex :
    validate_fvchain_address
        "fvcAAAAAAAAAAAAAAAAAAAAAAAAAAAAAAAAAAAAemyl".toList = .ok () ∧
    specAddressShape
        "fvcAAAAAAAAAAAAAAAAAAAAAAAAAAAAAAAAAAAAemyl".toList = false := by
  constructor
  · rfl
  · decide

/-- C5 (amended): validation is total and succeeds iff the input is exactly
43 characters consisting of "fvc", then 36 ASCII hex characters of either
case, then "emyl"; every other shape is rejected with an error. -/
theorem validate_fvchain_address_iff (address : List Char) :
    validate_fvchain_address address = .ok () ↔ codeAddressShape address = true := by
  unfold validate_fvchain_address codeAddressShape
  split_ifs with h1 h2 h3 h4 _h5 _h6 <;>
    simp_all [List.isEmpty_iff]

/-! ## C6 theorems -/

/-- Rounding to the nearest integer, ties to even, moves a value by at most
one half. -/
theorem rne_bounds (y : ℚ) : y - 1 / 2 ≤ (rne y : ℚ) ∧ (rne y : ℚ) ≤ y + 1 / 2 := by
  have h1 : ((⌊y⌋ : ℤ) : ℚ) ≤ y := Int.floor_le y
  have h2 : y < ⌊y⌋ + 1 := Int.lt_floor_add_one y
  rw [rne]
  split_ifs <;> constructor <;> push_cast <;> linarith

/-- rustRound on a nonnegative value: within one half, and nonnegative. -/
theorem rustRound_bounds (q : ℚ) (hq : 0 ≤ q) :
    q - 1 / 2 ≤ ((rustRound q : ℤ) : ℚ) ∧ ((rustRound q : ℤ) : ℚ) ≤ q + 1 / 2 ∧
      0 ≤ rustRound q := by
  rw [rustRound, if_pos hq]
  have h1 : ((⌊q + 1 / 2⌋ : ℤ) : ℚ) ≤ q + 1 / 2 := Int.floor_le _
  have h2 : q + 1 / 2 - 1 < ((⌊q + 1 / 2⌋ : ℤ) : ℚ) := Int.sub_one_lt_floor _
  exact ⟨by linarith, h1, Int.floor_nonneg.mpr (by linarith)⟩

/-- The fuelled logarithm is exact once the fuel covers the input. -/
theorem log2fuel_spec : ∀ fuel n : Nat, 1 ≤ n → n ≤ fuel →
    2 ^ log2fuel fuel n ≤ n ∧ n < 2 ^ (log2fuel fuel n + 1) := by
  intro fuel
  induction fuel with
  | zero => intro n h1 h2; omega
  | succ fuel ih =>
    intro n h1 h2
    rw [log2fuel]
    by_cases h2n : 2 ≤ n
    · rw [if_pos h2n]
      obtain ⟨ihl, ihr⟩ := ih (n / 2) (by omega) (by omega)
      constructor
      · rw [pow_succ]
        omega
      · rw [pow_succ]
        have hp : (2 : Nat) ^ (log2fuel fuel (n / 2) + 1) = 2 ^ log2fuel fuel (n / 2) * 2 :=
          pow_succ 2 _
        omega
    · rw [if_neg h2n]
      constructor
      · simpa using h1
      · omega

theorem natLog2_spec (n : Nat) (h : 1 ≤ n) :
    2 ^ natLog2 n ≤ n ∧ n < 2 ^ (natLog2 n + 1) :=
  log2fuel_spec n n h (le_refl n)

/-- The quotient of two positive naturals sits within one binade of the
difference of their bit lengths. -/
theorem qlog2_bounds_aux (a b : Nat) (ha1 : 1 ≤ a) (hb1 : 1 ≤ b) :
    (2 : ℚ) ^ (((natLog2 a : ℤ) - natLog2 b) - 1) < (a : ℚ) / b ∧
    (a : ℚ) / b < (2 : ℚ) ^ (((natLog2 a : ℤ) - natLog2 b) + 1) := by
  obtain ⟨hal, hau⟩ := natLog2_spec a ha1
  obtain ⟨hbl, hbu⟩ := natLog2_spec b hb1
  have haq_l : (2 : ℚ) ^ natLog2 a ≤ (a : ℚ) := by exact_mod_cast hal
  have haq_u : ((a : ℚ)) < 2 ^ (natLog2 a + 1) := by exact_mod_cast hau
  have hbq_l : (2 : ℚ) ^ natLog2 b ≤ (b : ℚ) := by exact_mod_cast hbl
  have hbq_u : ((b : ℚ)) < 2 ^ (natLog2 b + 1) := by exact_mod_cast hbu
  have hbq0 : (0 : ℚ) < b := by exact_mod_cast hb1
  have haq0 : (0 : ℚ) < a := by exact_mod_cast ha1
  have hz : ∀ p q : ℕ, (2 : ℚ) ^ p / 2 ^ q = 2 ^ ((p : ℤ) - q) := by
    intro p q
    rw [zpow_sub₀ (two_ne_zero), zpow_natCast, zpow_natCast]
  constructor
  · have h1 : (2 : ℚ) ^ natLog2 a / 2 ^ (natLog2 b + 1) < (2 : ℚ) ^ natLog2 a / b :=
      div_lt_div_of_pos_left (by positivity) hbq0 hbq_u
    have h2 : (2 : ℚ) ^ natLog2 a / (b : ℚ) ≤ (a : ℚ) / b := by gcongr
    have h3 : (2 : ℚ) ^ natLog2 a / 2 ^ (natLog2 b + 1)
        = 2 ^ (((natLog2 a : ℤ) - natLog2 b) - 1) := by
      rw [hz (natLog2 a) (natLog2 b + 1)]
      congr 1
      push_cast
      ring
    calc (2 : ℚ) ^ (((natLog2 a : ℤ) - natLog2 b) - 1)
        = (2 : ℚ) ^ natLog2 a / 2 ^ (natLog2 b + 1) := h3.symm
      _ < (2 : ℚ) ^ natLog2 a / b := h1
      _ ≤ (a : ℚ) / b := h2
  · have h1 : (a : ℚ) / b ≤ (a : ℚ) / 2 ^ natLog2 b := by gcongr
    have h2 : (a : ℚ) / 2 ^ natLog2 b < (2 : ℚ) ^ (natLog2 a + 1) / 2 ^ natLog2 b := by
      gcongr
    have h3 : (2 : ℚ) ^ (natLog2 a + 1) / 2 ^ natLog2 b
        = 2 ^ (((natLog2 a : ℤ) - natLog2 b) + 1) := by
      rw [hz (natLog2 a + 1) (natLog2 b)]
      congr 1
      push_cast
      ring
    calc (a : ℚ) / b ≤ (a : ℚ) / 2 ^ natLog2 b := h1
      _ < (2 : ℚ) ^ (natLog2 a + 1) / 2 ^ natLog2 b := h2
      _ = _ := h3

/-- qlog2 finds the binade: 2 ^ qlog2 x ≤ x < 2 ^ (qlog2 x + 1). -/
theorem qlog2_spec (x : ℚ) (hx : 0 < x) :
    (2 : ℚ) ^ qlog2 x ≤ x ∧ x < (2 : ℚ) ^ (qlog2 x + 1) := by
  have hnum : 0 < x.num := Rat.num_pos.mpr hx
  have hden : 0 < x.den := x.pos
  have ha1 : 1 ≤ x.num.toNat := by omega
  have hxval : ((x.num.toNat : ℕ) : ℚ) / ((x.den : ℕ) : ℚ) = x := by
    have h1 : ((x.num.toNat : ℕ) : ℤ) = x.num := Int.toNat_of_nonneg hnum.le
    have hcast : ((x.num.toNat : ℕ) : ℚ) = ((x.num : ℤ) : ℚ) := by exact_mod_cast h1
    rw [hcast]
    exact Rat.num_div_den x
  obtain ⟨hlow, hup⟩ := qlog2_bounds_aux x.num.toNat x.den ha1 (by omega)
  rw [hxval] at hlow hup
  simp only [qlog2]
  split_ifs with hif
  · exact ⟨hif, hup⟩
  · refine ⟨le_of_lt hlow, ?_⟩
    have he : ((natLog2 x.num.toNat : ℤ) - natLog2 x.den - 1) + 1
        = (natLog2 x.num.toNat : ℤ) - natLog2 x.den := by ring
    rw [he]
    exact lt_of_not_le hif

/-- Rounding a positive rational in the normal binary64 range yields a
finite value with relative error at most 2 ^ (-53). -/
theorem roundF64pos_spec (x : ℚ) (hlo : (2 : ℚ) ^ (-1022 : ℤ) ≤ x)
    (hhi : x < (2 : ℚ) ^ (1023 : ℤ)) :
    ∃ v : ℚ, roundF64pos x = .finite v ∧
      x - x / 2 ^ 53 ≤ v ∧ v ≤ x + x / 2 ^ 53 := by
  have hx : 0 < x := lt_of_lt_of_le (by positivity) hlo
  obtain ⟨hql, hqu⟩ := qlog2_spec x hx
  have hloge : (-1022 : ℤ) ≤ qlog2 x := by
    by_contra h
    push_neg at h
    have h2 : (2 : ℚ) ^ (qlog2 x + 1) ≤ 2 ^ ((-1022 : ℤ)) :=
      zpow_le_zpow_right₀ (by norm_num) (by omega)
    linarith
  have hmax : max (qlog2 x) (-1022) = qlog2 x := max_eq_left hloge
  set e := qlog2 x with he
  set P : ℚ := 2 ^ (e - 52) with hP
  have hPpos : 0 < P := by rw [hP]; positivity
  have hmP : x / P * P = x := div_mul_cancel₀ x (ne_of_gt hPpos)
  obtain ⟨hr1, hr2⟩ := rne_bounds (x / P)
  have hv1 : x - P / 2 ≤ (rne (x / P) : ℚ) * P := by
    have hm := mul_le_mul_of_nonneg_right hr1 hPpos.le
    rw [sub_mul, hmP] at hm
    linarith
  have hv2 : (rne (x / P) : ℚ) * P ≤ x + P / 2 := by
    have hm := mul_le_mul_of_nonneg_right hr2 hPpos.le
    rw [add_mul, hmP] at hm
    linarith
  have hP53 : P * 2 ^ (53 : ℕ) = 2 ^ e * 2 := by
    rw [hP, ← zpow_natCast (2 : ℚ) 53, ← zpow_add₀ (two_ne_zero)]
    have hexp : e - 52 + (53 : ℕ) = e + 1 := by push_cast; ring
    rw [hexp, zpow_add_one₀ (two_ne_zero)]
  have hP2 : P / 2 ≤ x / 2 ^ 53 := by
    rw [div_le_div_iff₀ (by norm_num) (by norm_num)]
    calc P * 2 ^ 53 = 2 ^ e * 2 := hP53
      _ ≤ x * 2 := by linarith
  have hxd : x / 2 ^ 53 ≤ x := div_le_self hx.le (by norm_num)
  have h1024 : (2 : ℚ) ^ (1023 : ℤ) * 2 = 2 ^ (1024 : ℕ) := by
    rw [← zpow_natCast (2 : ℚ) 1024]
    have hexp : ((1024 : ℕ) : ℤ) = (1023 : ℤ) + 1 := by norm_num
    rw [hexp, zpow_add_one₀ (two_ne_zero)]
  have hover : (rne (x / P) : ℚ) * P < 2 ^ 1024 := by
    calc (rne (x / P) : ℚ) * P ≤ x + P / 2 := hv2
      _ ≤ x + x / 2 ^ 53 := by linarith
      _ ≤ x + x := by linarith
      _ < (2 : ℚ) ^ (1023 : ℤ) * 2 := by linarith
      _ = 2 ^ (1024 : ℕ) := h1024
  refine ⟨(rne (x / P) : ℚ) * P, ?_, by linarith, by linarith⟩
  simp only [roundF64pos, hmax, ← he, ← hP]
  rw [if_pos hover]

/-- Rounding a positive in-range rational through roundF64. -/
theorem roundF64_pos_spec (x : ℚ) (hx : 0 < x) (hlo : (2 : ℚ) ^ (-1022 : ℤ) ≤ x)
    (hhi : x < (2 : ℚ) ^ (1023 : ℤ)) :
    ∃ v : ℚ, roundF64 x = .finite v ∧
      x - x / 2 ^ 53 ≤ v ∧ v ≤ x + x / 2 ^ 53 := by
  rw [roundF64, if_neg (ne_of_gt hx), if_pos hx]
  exact roundF64pos_spec x hlo hhi

theorem u64ToF64_zero : u64ToF64 0 = .finite 0 := by
  rw [u64ToF64]
  norm_num [roundF64]

/-- Casting a nonzero u64 to f64: finite, positive, relative error within
2 ^ (-53). -/
theorem u64ToF64_spec (n : Nat) (h1 : 1 ≤ n) (h2 : n < 2 ^ 64) :
    ∃ v : ℚ, u64ToF64 n = .finite v ∧
      (n : ℚ) - n / 2 ^ 53 ≤ v ∧ v ≤ (n : ℚ) + n / 2 ^ 53 ∧ 0 < v := by
  have hn : (0 : ℚ) < n := by exact_mod_cast Nat.pos_of_ne_zero (by omega)
  have hn1 : (1 : ℚ) ≤ n := by exact_mod_cast h1
  have hlo : (2 : ℚ) ^ (-1022 : ℤ) ≤ n :=
    le_trans (zpow_le_one_of_nonpos₀ (by norm_num) (by norm_num)) hn1
  have hhi : (n : ℚ) < (2 : ℚ) ^ (1023 : ℤ) := by
    have hn2 : (n : ℚ) < 2 ^ (64 : ℕ) := by exact_mod_cast h2
    have hcmp : ((2 : ℚ) ^ (64 : ℕ)) < (2 : ℚ) ^ (1023 : ℤ) := by decide!
    exact hn2.trans hcmp
  obtain ⟨v, hv, hv1, hv2⟩ := roundF64_pos_spec n hn hlo hhi
  have hd : (n : ℚ) / 2 ^ 53 < n := div_lt_self hn (by norm_num)
  exact ⟨v, hv, hv1, hv2, by linarith⟩

/-- The clamped adjustment factor is NaN exactly when both wrapped totals
are zero; otherwise it is a finite value in the clamp range [1/4, 4]. -/
theorem factor_spec (E A : Nat) (hE : E < 2 ^ 64) (hA : A < 2 ^ 64) :
    (E = 0 ∧ A = 0 ∧
      fclamp (fdiv (u64ToF64 E) (u64ToF64 A)) (1 / max_adjustment_factor)
        max_adjustment_factor = .nan) ∨
    (∃ f : ℚ,
      fclamp (fdiv (u64ToF64 E) (u64ToF64 A)) (1 / max_adjustment_factor)
        max_adjustment_factor = .finite f ∧ 1 / 4 ≤ f ∧ f ≤ 4) := by
  rcases Nat.eq_zero_or_pos A with rfl | hApos
  · rcases Nat.eq_zero_or_pos E with rfl | hEpos
    · exact .inl ⟨rfl, rfl, by rw [u64ToF64_zero]; rfl⟩
    · obtain ⟨vE, hvE, _, _, hvEpos⟩ := u64ToF64_spec E hEpos hE
      refine .inr ⟨4, ?_, by norm_num, le_refl 4⟩
      rw [hvE, u64ToF64_zero]
      have hd : fdiv (.finite vE) (.finite (0 : ℚ)) = F64.inf := by
        show (if (0 : ℚ) = 0 then (if vE = 0 then F64.nan else F64.inf)
          else roundF64 (vE / 0)) = F64.inf
        rw [if_pos rfl, if_neg hvEpos.ne']
      rw [hd]
      rfl
  · obtain ⟨vA, hvA, hvA1, hvA2, hvApos⟩ := u64ToF64_spec A hApos hA
    have hA1 : (1 : ℚ) ≤ A := by exact_mod_cast hApos
    have hAq : (A : ℚ) ≤ 2 ^ 64 := by exact_mod_cast hA.le
    have hvAlo : (1 : ℚ) / 2 ≤ vA := by
      have hdA : (A : ℚ) / 2 ^ 53 ≤ (A : ℚ) / 2 := by gcongr <;> norm_num
      linarith
    have hvAhi : vA ≤ 2 ^ 65 := by
      have hdA : (A : ℚ) / 2 ^ 53 ≤ (A : ℚ) := div_le_self (by linarith) (by norm_num)
      have h65 : (2 : ℚ) ^ 64 + 2 ^ 64 = 2 ^ 65 := by norm_num
      linarith
    rcases Nat.eq_zero_or_pos E with rfl | hEpos
    · refine .inr ⟨1 / 4, ?_, le_refl _, by norm_num⟩
      rw [u64ToF64_zero, hvA]
      have hd : fdiv (.finite (0 : ℚ)) (.finite vA) = .finite 0 := by
        show (if vA = 0 then (if (0 : ℚ) = 0 then F64.nan else F64.inf)
          else roundF64 (0 / vA)) = F64.finite 0
        rw [if_neg hvApos.ne', zero_div, roundF64, if_pos rfl]
      rw [hd]
      decide!
    · obtain ⟨vE, hvE, hvE1, hvE2, hvEpos⟩ := u64ToF64_spec E hEpos hE
      have hE1 : (1 : ℚ) ≤ E := by exact_mod_cast hEpos
      have hEq : (E : ℚ) ≤ 2 ^ 64 := by exact_mod_cast hE.le
      have hvElo : (1 : ℚ) / 2 ≤ vE := by
        have hdE : (E : ℚ) / 2 ^ 53 ≤ (E : ℚ) / 2 := by gcongr <;> norm_num
        linarith
      have hvEhi : vE ≤ 2 ^ 65 := by
        have hdE : (E : ℚ) / 2 ^ 53 ≤ (E : ℚ) := div_le_self (by linarith) (by norm_num)
        have h65 : (2 : ℚ) ^ 64 + 2 ^ 64 = 2 ^ 65 := by norm_num
        linarith
      have hq : 0 < vE / vA := div_pos hvEpos hvApos
      have hqlo : (2 : ℚ) ^ (-1022 : ℤ) ≤ vE / vA := by
        have hstep : (1 : ℚ) / 2 / 2 ^ 65 ≤ vE / vA := by gcongr
        have hsmall : (2 : ℚ) ^ (-1022 : ℤ) ≤ 1 / 2 / 2 ^ 65 := by decide!
        exact hsmall.trans hstep
      have hqhi : vE / vA < (2 : ℚ) ^ (1023 : ℤ) := by
        have hstep : vE / vA ≤ 2 ^ 65 / (1 / 2 : ℚ) := by gcongr
        have hbig : ((2 : ℚ) ^ 65 / (1 / 2) : ℚ) < (2 : ℚ) ^ (1023 : ℤ) := by decide!
        exact lt_of_le_of_lt hstep hbig
      obtain ⟨q, hqeq, hq1, hq2⟩ := roundF64_pos_spec (vE / vA) hq hqlo hqhi
      clear hqlo hqhi
      rw [hvE, hvA]
      have hd : fdiv (.finite vE) (.finite vA) = .finite q := by
        show (if vA = 0 then (if vE = 0 then F64.nan else F64.inf)
          else roundF64 (vE / vA)) = F64.finite q
        rw [if_neg hvApos.ne', hqeq]
      rw [hd]
      have hcl : fclamp (.finite q) (1 / max_adjustment_factor) max_adjustment_factor
          = if q < 1 / 4 then .finite (1 / 4)
            else if (4 : ℚ) < q then .finite 4 else .finite q := rfl
      rw [hcl]
      split_ifs with hc1 hc2
      · exact .inr ⟨1 / 4, rfl, le_refl _, by norm_num⟩
      · exact .inr ⟨4, rfl, by norm_num, le_refl 4⟩
      · exact .inr ⟨q, rfl, le_of_not_lt hc1, le_of_not_lt hc2⟩

/-- C6 counterexample: with current difficulty 5 and 2023 samples of 20
seconds against a 5 second target, the factor clamps to exactly 1/4 and
round(5 * 0.25) = round(1.25) = 1, so the returned difficulty is 1 and
the ratio 1/5 is strictly below the claimed lower clamp 1/4.  The
binary64 model computes every intermediate value on this input (10115,
40460, 0.25, 1.25, 1.0) exactly as the hardware would. -/
theorem calculate_new_difficulty_clamp_cex :
    2023 ≤ (List.replicate 2023 20).length ∧
    1 ≤ 5 ∧
    calculate_new_difficulty 5 2023 5 (List.replicate 2023 20) = 1 ∧
    ((1 : ℚ) / 5 < 1 / 4) := by
  have hl : (List.replicate 2023 20).length = 2023 := List.length_replicate _ _
  refine ⟨by rw [hl], by norm_num, ?_, by norm_num⟩
  have hs : (List.replicate 2023 20).sum = 40460 := by
    rw [List.sum_replicate]
    rfl
  rw [calculate_new_difficulty, hl, hs, if_neg (by norm_num)]
  decide!

set_option maxHeartbeats 1000000 in
/-- C6 (amended): for every u64 current difficulty c ≥ 1 and every window
of at least adjustment_interval block-time samples, the new difficulty n
satisfies n ≥ 1 and n ≤ 4c + c/2^49 + 1, and, provided the wrapped
expected and actual total times are not both zero (in that corner the f64
factor is NaN and the code returns 1), also c ≤ 4n + c/2^48 + 2: the
clamp ratio bounds hold only up to the final rounding to the nearest
integer and the relative error of the binary64 arithmetic. -/
theorem calculate_new_difficulty_bounds (target interval c : Nat) (times : List Nat)
    (hc : 1 ≤ c) (hc64 : c < 2 ^ 64) (hlen : interval ≤ times.length) :
    1 ≤ calculate_new_difficulty target interval c times ∧
    (calculate_new_difficulty target interval c times : ℚ)
        ≤ 4 * c + c / 2 ^ 49 + 1 ∧
    (¬ (target * interval % 2 ^ 64 = 0 ∧ times.sum % 2 ^ 64 = 0) →
      (c : ℚ) ≤ 4 * (calculate_new_difficulty target interval c times : ℚ)
          + c / 2 ^ 48 + 2) := by
  have hc1 : (1 : ℚ) ≤ (c : ℚ) := by exact_mod_cast hc
  have hcq : (c : ℚ) ≤ 2 ^ 64 := by exact_mod_cast hc64.le
  have hpos49 : (0 : ℚ) ≤ (c : ℚ) / 2 ^ 49 := by positivity
  have hnl : ¬ times.length < interval := by omega
  simp only [calculate_new_difficulty, if_neg hnl]
  obtain ⟨vc, hvc, hvc1, hvc2, hvcpos⟩ := u64ToF64_spec c hc hc64
  rcases factor_spec (target * interval % 2 ^ 64) (times.sum % 2 ^ 64)
      (Nat.mod_lt _ (by norm_num)) (Nat.mod_lt _ (by norm_num)) with
    ⟨hE0, hA0, hnan⟩ | ⟨f, hfac, hf1, hf4⟩
  · rw [hnan, hvc]
    have hstep : max (f64ToU64 (fround (fmul (.finite vc) .nan))) 1 = 1 := rfl
    rw [hstep]
    refine ⟨le_refl 1, ?_, fun hne => absurd ⟨hE0, hA0⟩ hne⟩
    push_cast
    linarith
  · rw [hfac, hvc]
    have hfm : fmul (.finite vc) (.finite f) = roundF64 (vc * f) := rfl
    rw [hfm]
    have hvchalf : (1 : ℚ) / 2 ≤ vc := by
      have hdv : (c : ℚ) / 2 ^ 53 ≤ (c : ℚ) / 2 := by gcongr <;> norm_num
      linarith
    have hvchi : vc ≤ 2 ^ 65 := by
      have hdv : (c : ℚ) / 2 ^ 53 ≤ (c : ℚ) := div_le_self (by linarith) (by norm_num)
      have h65 : (2 : ℚ) ^ 64 + 2 ^ 64 = 2 ^ 65 := by norm_num
      linarith
    have hppos : 0 < vc * f := mul_pos hvcpos (by linarith)
    have hplo : (2 : ℚ) ^ (-1022 : ℤ) ≤ vc * f := by
      have hstep : (1 : ℚ) / 8 ≤ vc * f := by nlinarith
      have h8 : (2 : ℚ) ^ (-1022 : ℤ) ≤ 1 / 8 := by decide!
      exact h8.trans hstep
    have hphi : vc * f < (2 : ℚ) ^ (1023 : ℤ) := by
      have hstep : vc * f ≤ 2 ^ 65 * 4 := by nlinarith
      have hbig : ((2 : ℚ) ^ 65 * 4 : ℚ) < (2 : ℚ) ^ (1023 : ℤ) := by decide!
      exact lt_of_le_of_lt hstep hbig
    obtain ⟨vp, hvp, hvp1, hvp2⟩ := roundF64_pos_spec (vc * f) hppos hplo hphi
    clear hplo hphi
    rw [hvp]
    have hvppos : (0 : ℚ) ≤ vp := by
      have hd : vc * f / 2 ^ 53 ≤ vc * f := div_le_self hppos.le (by norm_num)
      linarith
    obtain ⟨hr1, hr2, hr0⟩ := rustRound_bounds vp hvppos
    have hfr : fround (.finite vp) = .finite ((rustRound vp : ℤ) : ℚ) := rfl
    rw [hfr]
    have hR0 : (0 : ℚ) ≤ ((rustRound vp : ℤ) : ℚ) := by exact_mod_cast hr0
    have hchain_vcf : vc * f ≤ 4 * c + 4 * ((c : ℚ) / 2 ^ 53) := by
      have hh1 : vc * f ≤ vc * 4 := by nlinarith
      have hh2 : vc * 4 ≤ ((c : ℚ) + c / 2 ^ 53) * 4 := by linarith
      nlinarith
    have hdiv : vc * f / 2 ^ 53 ≤ (4 * c + 4 * ((c : ℚ) / 2 ^ 53)) / 2 ^ 53 := by
      gcongr
    have hslack_up : 4 * ((c : ℚ) / 2 ^ 53)
        + (4 * c + 4 * ((c : ℚ) / 2 ^ 53)) / 2 ^ 53 ≤ (c : ℚ) / 2 ^ 49 := by
      have heq : 4 * ((c : ℚ) / 2 ^ 53) + (4 * c + 4 * ((c : ℚ) / 2 ^ 53)) / 2 ^ 53
          = (c : ℚ) * (4 / 2 ^ 53 + 4 / 2 ^ 53 + 4 / 2 ^ 106) := by ring
      have heq2 : (c : ℚ) / 2 ^ 49 = (c : ℚ) * (1 / 2 ^ 49) := by ring
      rw [heq, heq2]
      have hk : (4 / 2 ^ 53 + 4 / 2 ^ 53 + 4 / 2 ^ 106 : ℚ) ≤ 1 / 2 ^ 49 := by norm_num
      exact mul_le_mul_of_nonneg_left hk (by linarith)
    have hup : ((rustRound vp : ℤ) : ℚ) ≤ 4 * c + (c : ℚ) / 2 ^ 49 + 1 / 2 := by
      linarith
    have hlo3 : (c : ℚ) / 4 - (c : ℚ) / 2 ^ 55 ≤ vc * f := by
      have hh1 : vc * (1 / 4 : ℚ) ≤ vc * f := by nlinarith
      have hh2 : ((c : ℚ) - c / 2 ^ 53) * (1 / 4) ≤ vc * (1 / 4) := by linarith
      have he : ((c : ℚ) - c / 2 ^ 53) * (1 / 4) = (c : ℚ) / 4 - c / 2 ^ 55 := by ring
      linarith
    have hslack_lo : (c : ℚ) / 2 ^ 55 + (4 * c + 4 * ((c : ℚ) / 2 ^ 53)) / 2 ^ 53
        ≤ (c : ℚ) / 2 ^ 50 := by
      have heq : (c : ℚ) / 2 ^ 55 + (4 * c + 4 * ((c : ℚ) / 2 ^ 53)) / 2 ^ 53
          = (c : ℚ) * (1 / 2 ^ 55 + 4 / 2 ^ 53 + 4 / 2 ^ 106) := by ring
      have heq2 : (c : ℚ) / 2 ^ 50 = (c : ℚ) * (1 / 2 ^ 50) := by ring
      rw [heq, heq2]
      have hk : (1 / 2 ^ 55 + 4 / 2 ^ 53 + 4 / 2 ^ 106 : ℚ) ≤ 1 / 2 ^ 50 := by norm_num
      exact mul_le_mul_of_nonneg_left hk (by linarith)
    have hlow : (c : ℚ) / 4 - (c : ℚ) / 2 ^ 50 - 1 / 2 ≤ ((rustRound vp : ℤ) : ℚ) := by
      linarith
    by_cases hsat : (2 ^ 64 : ℚ) ≤ ((rustRound vp : ℤ) : ℚ)
    · have hcast : f64ToU64 (.finite ((rustRound vp : ℤ) : ℚ)) = 2 ^ 64 - 1 := by
        simp only [f64ToU64, if_neg (not_lt.mpr hR0), if_pos hsat]
      rw [hcast]
      have hmaxv : max (2 ^ 64 - 1) 1 = 2 ^ 64 - 1 := by norm_num
      rw [hmaxv]
      have hn : (((2 : ℕ) ^ 64 - 1 : ℕ) : ℚ) = 2 ^ 64 - 1 := by norm_num
      refine ⟨by norm_num, ?_, fun _ => ?_⟩
      · rw [hn]
        linarith
      · rw [hn]
        have hd : (0 : ℚ) ≤ (c : ℚ) / 2 ^ 48 := by positivity
        linarith
    · have hflr : ⌊((rustRound vp : ℤ) : ℚ)⌋ = rustRound vp := Int.floor_intCast _
      have hcast : f64ToU64 (.finite ((rustRound vp : ℤ) : ℚ)) = (rustRound vp).toNat := by
        simp only [f64ToU64, if_neg (not_lt.mpr hR0), if_neg hsat, hflr]
      rw [hcast]
      have hndq : (((rustRound vp).toNat : ℕ) : ℚ) = ((rustRound vp : ℤ) : ℚ) := by
        exact_mod_cast Int.toNat_of_nonneg hr0
      have hcastmax : ((max ((rustRound vp).toNat) 1 : ℕ) : ℚ)
          = max ((((rustRound vp).toNat : ℕ) : ℚ)) 1 := by
        rw [Nat.cast_max]
        norm_num
      refine ⟨le_max_right _ _, ?_, fun _ => ?_⟩
      · rw [hcastmax, hndq]
        apply max_le
        · linarith
        · linarith
      · have hge : ((rustRound vp : ℤ) : ℚ) ≤ ((max ((rustRound vp).toNat) 1 : ℕ) : ℚ) := by
          rw [hcastmax, hndq]
          exact le_max_left _ _
        have hring : 4 * ((c : ℚ) / 2 ^ 50) = (c : ℚ) / 2 ^ 48 := by ring
        linarith

/-- Witness for calculate_new_difficulty_bounds on a perfect window. -/
theorem calculate_new_difficulty_bounds_witness :
    (1 ≤ 1 ∧ 1 < 2 ^ 64 ∧ 1 ≤ [5].length) ∧
    (1 ≤ calculate_new_difficulty 5 1 1 [5] ∧
      (calculate_new_difficulty 5 1 1 [5] : ℚ) ≤ 4 * 1 + 1 / 2 ^ 49 + 1 ∧
      (¬ (5 * 1 % 2 ^ 64 = 0 ∧ [5].sum % 2 ^ 64 = 0) →
        (1 : ℚ) ≤ 4 * (calculate_new_difficulty 5 1 1 [5] : ℚ) + 1 / 2 ^ 48 + 2)) := by
  refine ⟨⟨le_refl 1, by norm_num, by norm_num⟩, ?_⟩
  have hmain := calculate_new_difficulty_bounds 5 1 1 [5] (le_refl 1) (by norm_num)
    (by norm_num)
  exact_mod_cast hmain

/-! ## Key-value store lemmas -/

theorem kvGet_kvPut_same (s : Store) (k : Key) (v : Value) :
    kvGet (kvPut s k v) k = some v := by
  simp [kvGet, kvPut]

theorem kvGet_kvPut_ne (s : Store) (k k2 : Key) (v : Value) (h : ¬ k = k2) :
    kvGet (kvPut s k v) k2 = kvGet s k2 := by
  simp [kvGet, kvPut, h]

/-- add_transaction writes only tx:{hash}, the transaction registry, and the
transaction counter. -/
theorem kvGet_add_transaction (t : WalletTransaction) (s : Store) (k : Key)
    (h1 : ∀ h, ¬ k = Key.txKey h) (h2 : ¬ k = Key.txRegistry)
    (h3 : ¬ k = Key.txCount) :
    kvGet (add_transaction t s) k = kvGet s k := by
  rw [add_transaction]
  split
  · exact kvGet_kvPut_ne _ _ _ _ (fun he => h1 t.hash he.symm)
  · rw [increment_transaction_count, set_transaction_count]
    rw [kvGet_kvPut_ne _ _ _ _ (fun he => h3 he.symm)]
    rw [kvGet_kvPut_ne _ _ _ _ (fun he => h2 he.symm)]
    exact kvGet_kvPut_ne _ _ _ _ (fun he => h1 t.hash he.symm)

theorem kvGet_fold_add_transaction (txs : List WalletTransaction) (s : Store) (k : Key)
    (h1 : ∀ h, ¬ k = Key.txKey h) (h2 : ¬ k = Key.txRegistry)
    (h3 : ¬ k = Key.txCount) :
    kvGet (txs.foldl (fun st t => add_transaction t st) s) k = kvGet s k := by
  induction txs generalizing s with
  | nil => rfl
  | cons t rest ih =>
    rw [List.foldl_cons, ih (add_transaction t s)]
    exact kvGet_add_transaction t s k h1 h2 h3

/-- The registry after add_transaction: unchanged when the hash is already
present, extended by the hash otherwise. -/
theorem get_tx_registry_add (t : WalletTransaction) (s : Store) :
    get_tx_registry (add_transaction t s) =
      if t.hash ∈ get_tx_registry s then get_tx_registry s
      else get_tx_registry s ++ [t.hash] := by
  have hput : get_tx_registry (kvPut s (.txKey t.hash) (.tx t)) = get_tx_registry s := by
    rw [get_tx_registry, get_tx_registry, kvGet_kvPut_ne _ _ _ _ (by simp)]
  rw [add_transaction]
  split
  · next hmem =>
    rw [hput, if_pos (hput ▸ hmem)]
  · next hmem =>
    have hmem2 : t.hash ∉ get_tx_registry s := fun hm => hmem (by rw [hput]; exact hm)
    rw [if_neg hmem2, increment_transaction_count,
      set_transaction_count, get_tx_registry,
      kvGet_kvPut_ne _ _ _ _ (by simp), kvGet_kvPut_same, hput]

theorem mem_get_tx_registry_add (t : WalletTransaction) (s : Store) :
    t.hash ∈ get_tx_registry (add_transaction t s) := by
  rw [get_tx_registry_add]
  split
  · assumption
  · exact List.mem_append_right _ (List.mem_singleton.mpr rfl)

/-- store_block leaves the stored block readable at its height. -/
theorem get_block_by_height_store_block (b : Block) (s : Store) :
    get_block_by_height b.height (store_block b s) = some b := by
  rw [get_block_by_height, store_block,
    kvGet_fold_add_transaction _ _ _ (by simp) (by simp) (by simp),
    kvGet_kvPut_same]

/-- store_block never touches the block_height record. -/
theorem get_block_height_store_block (b : Block) (s : Store) :
    get_block_height (store_block b s) = get_block_height s := by
  rw [get_block_height, store_block,
    kvGet_fold_add_transaction _ _ _ (by simp) (by simp) (by simp),
    kvGet_kvPut_ne _ _ _ _ (by simp), get_block_height]

/-! ## C3 theorems -/

/-- C3 counterexample: storing a block of height 5 into the empty store
leaves the latest-height record at its default 1, strictly below the
height of the stored block, although the lookup of the block succeeds. -/
theorem store_block_no_latest_height_cex :
    get_block_by_height 5 (store_block cexBlock []) = some cexBlock ∧
    get_block_height (store_block cexBlock []) = 1 ∧
    ¬ 5 ≤ get_block_height (store_block cexBlock []) := by
  refine ⟨by decide, by decide, by decide⟩

/-- C3 (amended): after store_block(B), get_block_by_height(B.height)
returns B; store_block writes the block record and its transactions only
and leaves the latest-height record unchanged (the height counter is
advanced separately by increment_block_height). -/
theorem store_block_roundtrip (b : Block) (s : Store) :
    get_block_by_height b.height (store_block b s) = some b ∧
    get_block_height (store_block b s) = get_block_height s :=
  ⟨get_block_by_height_store_block b s, get_block_height_store_block b s⟩

/-! ## C7 theorems -/

/-- C7: add_transaction is idempotent on the registry, and the transaction
count (which reads the registry length) grows by at most one per call and
not at all when the hash is already registered. -/
theorem add_transaction_idempotent (t : WalletTransaction) (s : Store) :
    (get_tx_registry (add_transaction t (add_transaction t s))).length
        = (get_tx_registry (add_transaction t s)).length ∧
    get_transaction_count (add_transaction t s) ≤ get_transaction_count s + 1 ∧
    (t.hash ∈ get_tx_registry s →
      get_transaction_count (add_transaction t s) = get_transaction_count s) := by
  have hreg2 := get_tx_registry_add t (add_transaction t s)
  rw [if_pos (mem_get_tx_registry_add t s)] at hreg2
  refine ⟨by rw [hreg2], ?_, fun hm => ?_⟩
  · rw [get_transaction_count, get_transaction_count, get_tx_registry_add]
    split <;> simp
  · rw [get_transaction_count, get_transaction_count, get_tx_registry_add, if_pos hm]

/-! ## C4 lemmas: the reward distribution fold -/

theorem get_balance_add_transaction (t : WalletTransaction) (s : Store) (x : String) :
    get_balance (add_transaction t s) x = get_balance s x := by
  rw [get_balance, get_balance,
    kvGet_add_transaction _ _ _ (by simp) (by simp) (by simp)]

theorem get_balance_set_balance_same (s : Store) (a : String) (n : Nat) :
    get_balance (set_balance s a n) a = n := by
  rw [get_balance, set_balance, kvGet_kvPut_same]

theorem get_balance_set_balance_ne (s : Store) (a x : String) (n : Nat) (h : ¬ x = a) :
    get_balance (set_balance s a n) x = get_balance s x := by
  rw [get_balance, set_balance,
    kvGet_kvPut_ne _ _ _ _ (by simp only [Key.balanceKey.injEq]; exact fun he => h he.symm),
    get_balance]

/-- The complete behavior of the reward-distribution fold, by induction on
the device list: the transactions it emits, the keys it leaves alone, the
balances it leaves alone, and (when the stored addresses are distinct and
do not overflow) the balances it increments. -/
theorem reward_fold_spec (r bh ts : Nat) (mkHash : String → String) :
    ∀ (devices : List String) (s0 : Store) (acc : List WalletTransaction),
      (devices.foldl (reward_step r bh ts mkHash) (s0, acc)).2
          = acc ++ devices.filterMap (fun d =>
              (get_device_address s0 d).map
                (fun a => new_mining_reward a r (mkHash d) bh ts)) ∧
      (∀ k : Key, (∀ h, ¬ k = Key.txKey h) → ¬ k = Key.txRegistry →
          ¬ k = Key.txCount → (∀ a, ¬ k = Key.balanceKey a) →
          kvGet (devices.foldl (reward_step r bh ts mkHash) (s0, acc)).1 k = kvGet s0 k) ∧
      (∀ x, x ∉ devices.filterMap (get_device_address s0) →
          get_balance (devices.foldl (reward_step r bh ts mkHash) (s0, acc)).1 x
            = get_balance s0 x) ∧
      ((devices.filterMap (get_device_address s0)).Nodup →
        (∀ a ∈ devices.filterMap (get_device_address s0),
            get_balance s0 a + r ≤ u64Max) →
        ∀ a ∈ devices.filterMap (get_device_address s0),
          get_balance (devices.foldl (reward_step r bh ts mkHash) (s0, acc)).1 a
            = get_balance s0 a + r) := by
  intro devices
  induction devices with
  | nil =>
    intro s0 acc
    exact ⟨by simp, fun k _ _ _ _ => rfl, fun x _ => rfl,
      fun _ _ a ha => absurd ha (by simp)⟩
  | cons d rest ih =>
    intro s0 acc
    cases hd : get_device_address s0 d with
    | none =>
      have hstep : reward_step r bh ts mkHash (s0, acc) d = (s0, acc) := by
        rw [reward_step, hd]
      rw [List.foldl_cons, hstep]
      have hrest := ih s0 acc
      simpa [List.filterMap_cons, hd] using hrest
    | some a =>
      have hstep : reward_step r bh ts mkHash (s0, acc) d =
          (set_balance (add_transaction (new_mining_reward a r (mkHash d) bh ts) s0) a
            (saturating_add_u64
              (get_balance (add_transaction (new_mining_reward a r (mkHash d) bh ts) s0) a)
              r),
            acc ++ [new_mining_reward a r (mkHash d) bh ts]) := by
        rw [reward_step, hd]
      generalize htx : new_mining_reward a r (mkHash d) bh ts = tx at hstep
      generalize hs2 :
        set_balance (add_transaction tx s0) a
          (saturating_add_u64 (get_balance (add_transaction tx s0) a) r) = s2 at hstep
      have hbal_s1 : ∀ x, get_balance (add_transaction tx s0) x = get_balance s0 x :=
        fun x => get_balance_add_transaction tx s0 x
      have hframe2 : ∀ k : Key, (∀ h, ¬ k = Key.txKey h) → ¬ k = Key.txRegistry →
          ¬ k = Key.txCount → (∀ a2, ¬ k = Key.balanceKey a2) →
          kvGet s2 k = kvGet s0 k := by
        intro k hk1 hk2 hk3 hk4
        rw [← hs2, set_balance, kvGet_kvPut_ne _ _ _ _ (fun he => hk4 a he.symm)]
        exact kvGet_add_transaction _ _ _ hk1 hk2 hk3
      have hgda : ∀ d2, get_device_address s2 d2 = get_device_address s0 d2 := fun d2 => by
        rw [get_device_address, get_device_address,
          hframe2 _ (by simp) (by simp) (by simp) (by simp)]
      have hgda_fun : get_device_address s2 = get_device_address s0 := funext hgda
      have hbal_ne : ∀ x, ¬ x = a → get_balance s2 x = get_balance s0 x := by
        intro x hx
        rw [← hs2, get_balance_set_balance_ne _ _ _ _ hx, hbal_s1]
      have hbal_a : get_balance s2 a = saturating_add_u64 (get_balance s0 a) r := by
        rw [← hs2, get_balance_set_balance_same, hbal_s1]
      obtain ⟨ih1, ih2, ih3, ih4⟩ := ih s2 (acc ++ [tx])
      rw [List.foldl_cons, hstep]
      refine ⟨?_, ?_, ?_, ?_⟩
      · rw [ih1]
        have hfun : (fun d2 => (get_device_address s2 d2).map
            (fun a2 => new_mining_reward a2 r (mkHash d2) bh ts))
            = fun d2 => (get_device_address s0 d2).map
              (fun a2 => new_mining_reward a2 r (mkHash d2) bh ts) := by
          funext d2; rw [hgda]
        rw [hfun]
        simp [List.filterMap_cons, hd, htx]
      · intro k hk1 hk2 hk3 hk4
        rw [ih2 k hk1 hk2 hk3 hk4]
        exact hframe2 k hk1 hk2 hk3 hk4
      · intro x hx
        rw [List.filterMap_cons, hd] at hx
        simp only [List.mem_cons, not_or] at hx
        rw [ih3 x (by rw [hgda_fun]; exact hx.2)]
        exact hbal_ne x hx.1
      · intro hnodup hof a2 ha2
        rw [List.filterMap_cons, hd] at hnodup hof ha2
        have hnd := List.nodup_cons.mp hnodup
        rcases List.mem_cons.mp ha2 with rfl | hmem
        · rw [ih3 a2 (by rw [hgda_fun]; exact hnd.1), hbal_a, saturating_add_u64]
          exact Nat.min_eq_left (hof a2 (List.mem_cons_self _ _))
        · have hne : ¬ a2 = a := fun he => hnd.1 (he ▸ hmem)
          have hof2 : ∀ c ∈ rest.filterMap (get_device_address s2),
              get_balance s2 c + r ≤ u64Max := by
            intro c hc
            rw [hgda_fun] at hc
            have hcne : ¬ c = a := fun he => hnd.1 (he ▸ hc)
            rw [hbal_ne c hcne]
            exact hof c (List.mem_cons_of_mem _ hc)
          have := ih4 (by rw [hgda_fun]; exact hnd.2) hof2 a2 (by rw [hgda_fun]; exact hmem)
          rw [this, hbal_ne a2 hne]

/-- Summing per-device deltas when every stored address gained exactly r. -/
theorem dev_delta_sum_eq (devices : List String) (s s2 : Store) (r : Nat)
    (hsome : ∀ d ∈ devices, ∀ a, get_device_address s d = some a →
      get_balance s2 a = get_balance s a + r) :
    dev_delta_sum devices s s2 = (devices.filterMap (get_device_address s)).length * r := by
  induction devices with
  | nil => simp [dev_delta_sum]
  | cons d rest ih =>
    have ihr := ih (fun d2 hd2 => hsome d2 (List.mem_cons_of_mem _ hd2))
    rw [dev_delta_sum] at ihr
    cases hd : get_device_address s d with
    | none =>
      simp only [dev_delta_sum, List.map_cons, List.sum_cons, List.filterMap_cons, hd]
      simpa using ihr
    | some a =>
      have hba := hsome d (List.mem_cons_self _ _) a hd
      simp only [dev_delta_sum, List.map_cons, List.sum_cons, List.filterMap_cons, hd,
        List.length_cons, hba, Nat.add_sub_cancel_left]
      rw [ihr, Nat.succ_mul]
      omega

/-! ## C4 theorems -/

/-- C4 counterexample: one active device (M = 1) whose wallet address is
not stored: the tick emits no reward transaction and changes no balance,
so the per-tick sum of device balance deltas is 0 and not
M * floor(block_reward / M) = 6250000; in particular no transaction for
the ecosystem address is created either, the M = 0 fallback not firing. -/
theorem distribute_rewards_unknown_address_cex :
    (get_all_active_devices cexDeviceStore).length = 1 ∧
    (distribute_rewards 2 0 (fun _ => "h") "e" cexDeviceStore).2 = [] ∧
    dev_delta_sum (get_all_active_devices cexDeviceStore) cexDeviceStore
        (distribute_rewards 2 0 (fun _ => "h") "e" cexDeviceStore).1 = 0 ∧
    ¬ (0 : Nat) = 1 * (block_reward / 1) := by
  refine ⟨by decide, by decide, by decide, by decide⟩

/-- C4 (amended): in a tick with M > 0 active devices, each active device
whose wallet address is known receives exactly one mining_reward
transaction of amount floor(block_reward / M); when the known addresses
are pairwise distinct and no balance overflows u64, each such address
gains exactly that amount and the per-tick sum of device balance deltas
is K * floor(block_reward / M), where K counts the active devices with a
known address (K = M only when every active device has one); when M = 0,
a single mining_reward transaction for the full block reward is created
whose recipient is the ecosystem address. -/
theorem distribute_rewards_split (bh ts : Nat) (mkHash : String → String)
    (ecoHash : String) (s : Store)
    (hnodup : ((get_all_active_devices s).filterMap (get_device_address s)).Nodup)
    (hof : ∀ a ∈ (get_all_active_devices s).filterMap (get_device_address s),
      get_balance s a + block_reward / (get_all_active_devices s).length ≤ u64Max) :
    (¬ get_all_active_devices s = [] →
      ((distribute_rewards bh ts mkHash ecoHash s).2.map
          (fun t => (t.toAddr, t.amount, t.transaction_type))
        = ((get_all_active_devices s).filterMap (get_device_address s)).map
            (fun a => (a, block_reward / (get_all_active_devices s).length,
              "mining_reward"))) ∧
      (∀ d ∈ get_all_active_devices s, ∀ a, get_device_address s d = some a →
        get_balance (distribute_rewards bh ts mkHash ecoHash s).1 a
          = get_balance s a + block_reward / (get_all_active_devices s).length) ∧
      dev_delta_sum (get_all_active_devices s) s
          (distribute_rewards bh ts mkHash ecoHash s).1
        = ((get_all_active_devices s).filterMap (get_device_address s)).length
            * (block_reward / (get_all_active_devices s).length)) ∧
    (get_all_active_devices s = [] →
      (distribute_rewards bh ts mkHash ecoHash s).2
        = [new_mining_reward ecosystem_address block_reward ecoHash bh ts]) := by
  constructor
  · intro hne
    have hie : ¬ (get_all_active_devices s).isEmpty = true := by
      simp [List.isEmpty_iff, hne]
    simp only [distribute_rewards, if_neg hie]
    obtain ⟨h1, h2, h3, h4⟩ :=
      reward_fold_spec (block_reward / (get_all_active_devices s).length) bh ts mkHash
        (get_all_active_devices s) s []
    have hbal : ∀ d ∈ get_all_active_devices s, ∀ a, get_device_address s d = some a →
        get_balance ((get_all_active_devices s).foldl
            (reward_step (block_reward / (get_all_active_devices s).length) bh ts mkHash)
            (s, [])).1 a
          = get_balance s a + block_reward / (get_all_active_devices s).length := by
      intro d hd a ha
      exact h4 hnodup hof a (List.mem_filterMap.mpr ⟨d, hd, ha⟩)
    refine ⟨?_, hbal, ?_⟩
    · rw [h1]
      simp only [List.nil_append, List.map_filterMap]
      have hfun : (fun d => ((get_device_address s d).map
          (fun a => new_mining_reward a (block_reward / (get_all_active_devices s).length)
            (mkHash d) bh ts)).map
            (fun t => (t.toAddr, t.amount, t.transaction_type)))
          = fun d => (get_device_address s d).map
              (fun a => (a, block_reward / (get_all_active_devices s).length,
                "mining_reward")) := by
        funext d
        cases get_device_address s d <;> rfl
      rw [hfun]
    · exact dev_delta_sum_eq _ _ _ _ hbal
  · intro h0
    have hie : (get_all_active_devices s).isEmpty = true := by
      simp [List.isEmpty_iff, h0]
    simp only [distribute_rewards, if_pos hie]

/-- Witness for distribute_rewards_split: one active device with a stored
distinct address and no overflow. -/
theorem distribute_rewards_split_witness :
    dev_delta_sum (get_all_active_devices c4WitnessStore) c4WitnessStore
        (distribute_rewards 2 0 (fun _ => "h") "e" c4WitnessStore).1
      = ((get_all_active_devices c4WitnessStore).filterMap
            (get_device_address c4WitnessStore)).length
          * (block_reward / (get_all_active_devices c4WitnessStore).length) :=
  ((distribute_rewards_split 2 0 (fun _ => "h") "e" c4WitnessStore (by decide)
    (by decide)).1 (by decide)).2.2

/-! ## Miner tick lemmas -/

theorem get_block_height_set_block_height (s : Store) (n : Nat) :
    get_block_height (set_block_height s n) = n := by
  rw [get_block_height, set_block_height, kvGet_kvPut_same]

theorem get_block_by_height_set_block_height (h : Nat) (s : Store) (n : Nat) :
    get_block_by_height h (set_block_height s n) = get_block_by_height h s := by
  rw [get_block_by_height, set_block_height,
    kvGet_kvPut_ne _ _ _ _ (by simp), get_block_by_height]

theorem kvGet_distribute_rewards (bh ts : Nat) (mkHash : String → String)
    (ecoHash : String) (s : Store) (k : Key) (h1 : ∀ h, ¬ k = Key.txKey h)
    (h2 : ¬ k = Key.txRegistry) (h3 : ¬ k = Key.txCount)
    (h4 : ∀ a, ¬ k = Key.balanceKey a) :
    kvGet (distribute_rewards bh ts mkHash ecoHash s).1 k = kvGet s k := by
  by_cases he : (get_all_active_devices s).isEmpty = true
  · simp only [distribute_rewards, if_pos he]
    exact kvGet_add_transaction _ _ _ h1 h2 h3
  · simp only [distribute_rewards, if_neg he]
    exact (reward_fold_spec _ bh ts mkHash (get_all_active_devices s) s []).2.1
      k h1 h2 h3 h4

theorem get_block_height_distribute (bh ts : Nat) (mkHash : String → String)
    (ecoHash : String) (s : Store) :
    get_block_height (distribute_rewards bh ts mkHash ecoHash s).1
      = get_block_height s := by
  rw [get_block_height,
    kvGet_distribute_rewards _ _ _ _ _ _ (by simp) (by simp) (by simp) (by simp),
    get_block_height]

theorem foldl_block_add_transaction_height (txs : List WalletTransaction) (b : Block) :
    (txs.foldl block_add_transaction b).height = b.height := by
  induction txs generalizing b with
  | nil => rfl
  | cons t rest ih => rw [List.foldl_cons, ih]; rfl

theorem miner_block_height (nh ts : Nat) (digest : List Nat) (nonce : Nat)
    (txs : List WalletTransaction) :
    (miner_block nh ts digest nonce txs).height = nh := by
  rw [miner_block, foldl_block_add_transaction_height]
  rfl

/-- The height bookkeeping of one miner tick: the counter advances by 2 and
the block lands at the first incremented value. -/
theorem miner_tick_heights (ts : Nat) (mkHash : String → String) (ecoHash : String)
    (digest : List Nat) (nonce : Nat) (s : Store) :
    get_block_height (miner_tick ts mkHash ecoHash digest nonce s)
        = get_block_height s + 2 ∧
    ∃ b : Block, get_block_by_height (get_block_height s + 1)
        (miner_tick ts mkHash ecoHash digest nonce s) = some b ∧
      b.height = get_block_height s + 1 := by
  simp only [miner_tick, increment_block_height]
  have hX : get_block_height
      (store_block
        (miner_block (get_block_height s + 1) ts digest nonce
          (distribute_rewards (get_block_height s + 1) ts mkHash ecoHash
            (set_block_height s (get_block_height s + 1))).2)
        (distribute_rewards (get_block_height s + 1) ts mkHash ecoHash
          (set_block_height s (get_block_height s + 1))).1)
      = get_block_height s + 1 := by
    rw [get_block_height_store_block, get_block_height_distribute,
      get_block_height_set_block_height]
  constructor
  · rw [get_block_height_set_block_height, hX]
  · rw [get_block_by_height_set_block_height]
    refine ⟨miner_block (get_block_height s + 1) ts digest nonce
      (distribute_rewards (get_block_height s + 1) ts mkHash ecoHash
        (set_block_height s (get_block_height s + 1))).2, ?_, miner_block_height _ _ _ _ _⟩
    have hmb := get_block_by_height_store_block
      (miner_block (get_block_height s + 1) ts digest nonce
        (distribute_rewards (get_block_height s + 1) ts mkHash ecoHash
          (set_block_height s (get_block_height s + 1))).2)
      (distribute_rewards (get_block_height s + 1) ts mkHash ecoHash
        (set_block_height s (get_block_height s + 1))).1
    rw [miner_block_height] at hmb
    exact hmb

/-! ## C9 theorems -/

/-- C9 counterexample: one tick on the fresh store moves the height counter
from 1 to 3, an advance of 2, because the counter is incremented once
before the block is built (yielding h = 2, where the block is stored) and
once more after the successful store; the claim of exactly one increment
per tick fails. -/
theorem miner_tick_double_increment_cex :
    get_block_height ([] : Store) = 1 ∧
    get_block_height (miner_tick 0 (fun _ => "h") "e" [] 0 []) = 3 ∧
    ¬ get_block_height (miner_tick 0 (fun _ => "h") "e" [] 0 [])
        = get_block_height ([] : Store) + 1 := by
  refine ⟨by decide, by decide, by decide⟩

/-- C9 (amended): each successful tick increments the persistent
block_height counter twice, once by 1 before the block is constructed
(yielding the height h at which the block is stored) and once more by 1
after the successful store, so the counter advances by 2 per tick. -/
theorem miner_tick_height_increments (ts : Nat) (mkHash : String → String)
    (ecoHash : String) (digest : List Nat) (nonce : Nat) (s : Store) :
    get_block_height (miner_tick ts mkHash ecoHash digest nonce s)
        = get_block_height s + 2 ∧
    ∃ b : Block, get_block_by_height (get_block_height s + 1)
        (miner_tick ts mkHash ecoHash digest nonce s) = some b ∧
      b.height = get_block_height s + 1 :=
  miner_tick_heights ts mkHash ecoHash digest nonce s

/-! ## C10 theorems -/

/-- C10: on a store whose block_height key is absent, get_block_height
returns 1; a miner tick then stores its block at height 2; and
get_latest_blocks scans backwards from the default 1 and, finding fewer
blocks than the limit, appends the genesis block. -/
theorem fresh_ledger_defaults (s : Store) (g : Block) (limit ts nonce : Nat)
    (mkHash : String → String) (ecoHash : String) (digest : List Nat)
    (h0 : kvGet s .blockHeight = none)
    (h1 : get_block_by_height 1 s = none)
    (hg : get_block_by_height 0 s = some g)
    (hl : 1 ≤ limit) :
    get_block_height s = 1 ∧
    (∃ b : Block, get_block_by_height 2 (miner_tick ts mkHash ecoHash digest nonce s)
        = some b ∧ b.height = 2) ∧
    get_latest_blocks limit s = [g] := by
  have hgh : get_block_height s = 1 := by
    rw [get_block_height, h0]
  refine ⟨hgh, ?_, ?_⟩
  · have := (miner_tick_heights ts mkHash ecoHash digest nonce s).2
    rw [hgh] at this
    exact this
  · rw [get_latest_blocks, hgh]
    have hscan : scan_blocks s limit 1 = [] := by
      rw [scan_blocks, if_neg (by omega), h1]
      exact rfl
    rw [hscan]
    rw [if_pos (by simpa using hl), hg]
    simp [List.insertionSort]

/-- Witness for fresh_ledger_defaults on the genesis-only store. -/
theorem fresh_ledger_defaults_witness :
    get_block_height genesisOnlyStore = 1 ∧
    get_latest_blocks 1 genesisOnlyStore = [genesisBlock] :=
  ⟨(fresh_ledger_defaults genesisOnlyStore genesisBlock 1 0 0 (fun _ => "h") "e" []
      (by decide) (by decide) (by decide) (by decide)).1,
    (fresh_ledger_defaults genesisOnlyStore genesisBlock 1 0 0 (fun _ => "h") "e" []
      (by decide) (by decide) (by decide) (by decide)).2.2⟩

/-! ## C8 theorems -/

/-- In an association list with distinct keys, a key determines its value. -/
theorem nodup_keys_eq {α β : Type} [DecidableEq α] (l : List (α × β))
    (hnd : (l.map Prod.fst).Nodup) {a : α} {b c : β}
    (hb : (a, b) ∈ l) (hc : (a, c) ∈ l) : b = c := by
  induction l with
  | nil => exact absurd hb (List.not_mem_nil _)
  | cons p rest ih =>
    rw [List.map_cons, List.nodup_cons] at hnd
    obtain ⟨pa, pb⟩ := p
    rcases List.mem_cons.mp hb with hb1 | hb2 <;>
      rcases List.mem_cons.mp hc with hc1 | hc2
    · have hbc := hb1.trans hc1.symm
      simpa using hbc
    · obtain ⟨ha, hbv⟩ := Prod.mk.injEq .. ▸ hb1
      exact absurd (List.mem_map.mpr ⟨(a, c), hc2, ha⟩) hnd.1
    · obtain ⟨ha, hbv⟩ := Prod.mk.injEq .. ▸ hc1
      exact absurd (List.mem_map.mpr ⟨(a, b), hb2, ha⟩) hnd.1
    · exact ih hnd.2 hb2 hc2

/-- C8: a registered mining device whose heartbeat silence exceeds the
grace period (which in the default configuration is 90 s, above the 45 s
heartbeat timeout) has its is_mining flag cleared by the next monitor
tick and sits on the stop list for which the stop callback fires,
removing it from reward distribution; while the silence is still within
the grace window the device record survives the tick unchanged and keeps
mining. -/
theorem monitor_tick_grace_eviction (config : AutoDetectionConfig) (now : Nat)
    (connections : List (String × DeviceConnection)) (id : String)
    (c : DeviceConnection)
    (hkeys : (connections.map Prod.fst).Nodup)
    (hmem : (id, c) ∈ connections)
    (hcfg : config.heartbeat_timeout ≤ config.grace_period)
    (hmine : c.is_mining = true) :
    (config.grace_period < now - c.last_heartbeat →
      (id, { c with is_mining := false }) ∈ (monitor_tick config now connections).1 ∧
      id ∈ (monitor_tick config now connections).2.1) ∧
    (now - c.last_heartbeat ≤ config.grace_period →
      (id, c) ∈ (monitor_tick config now connections).1) ∧
    defaultAutoDetectionConfig.heartbeat_timeout = 45 ∧
    defaultAutoDetectionConfig.grace_period = 90 := by
  have hnotrem : id ∉ devices_to_remove config now connections := by
    intro hidr
    obtain ⟨p, hpf, hp1⟩ := List.mem_map.mp hidr
    obtain ⟨hpmem, hpcond⟩ := List.mem_filter.mp hpf
    obtain ⟨pa, pc⟩ := p
    simp only at hp1
    subst hp1
    have hpc : pc = c := nodup_keys_eq connections hkeys hpmem hmem
    subst hpc
    simp only [Bool.and_eq_true, Bool.not_eq_true', decide_eq_true_eq] at hpcond
    rw [hmine] at hpcond
    exact Bool.true_eq_false.mp hpcond.1.2
  refine ⟨fun hgr => ?_, fun hle => ?_, rfl, rfl⟩
  · have hstop : id ∈ devices_to_stop config now connections := by
      refine List.mem_map.mpr ⟨(id, c), List.mem_filter.mpr ⟨hmem, ?_⟩, rfl⟩
      simp only [Bool.and_eq_true, decide_eq_true_eq, time_since_heartbeat]
      exact ⟨⟨by omega, hmine⟩, hgr⟩
    constructor
    · simp only [monitor_tick]
      refine List.mem_filter.mpr ⟨?_, ?_⟩
      · exact List.mem_map.mpr ⟨(id, c), hmem, by simp [hstop]⟩
      · simpa using hnotrem
    · simpa only [monitor_tick] using hstop
  · have hnstop : id ∉ devices_to_stop config now connections := by
      intro hids
      obtain ⟨p, hpf, hp1⟩ := List.mem_map.mp hids
      obtain ⟨hpmem, hpcond⟩ := List.mem_filter.mp hpf
      obtain ⟨pa, pc⟩ := p
      simp only at hp1
      subst hp1
      have hpc : pc = c := nodup_keys_eq connections hkeys hpmem hmem
      subst hpc
      simp only [Bool.and_eq_true, decide_eq_true_eq, time_since_heartbeat] at hpcond
      omega
    simp only [monitor_tick]
    refine List.mem_filter.mpr ⟨?_, ?_⟩
    · exact List.mem_map.mpr ⟨(id, c), hmem, by simp [hnstop]⟩
    · simpa using hnotrem

/-- Witness for monitor_tick_grace_eviction: the default configuration, one
mining device silent for 100 s. -/
theorem monitor_tick_grace_eviction_witness :
    ([("d", cexConnection)].map Prod.fst).Nodup ∧
    defaultAutoDetectionConfig.grace_period < 100 - cexConnection.last_heartbeat ∧
    (("d", { cexConnection with is_mining := false })
        ∈ (monitor_tick defaultAutoDetectionConfig 100 [("d", cexConnection)]).1 ∧
      "d" ∈ (monitor_tick defaultAutoDetectionConfig 100 [("d", cexConnection)]).2.1) :=
  ⟨by decide, by decide,
    (monitor_tick_grace_eviction defaultAutoDetectionConfig 100 [("d", cexConnection)]
      "d" cexConnection (by decide) (by decide) (by decide) (by decide)).1 (by decide)⟩

end FVC
